import Mathlib

/-!
Verification of the TC_GENGEN generation/recovery pipeline.

This file shallowly embeds the algorithmic core of the repository
(`src/services/geminiService.ts` and `src/services/figmaService.ts`) in
Lean 4 and proves or refutes the frozen claims about it.

Modelling conventions:
* JS strings are embedded as `List Char` (named `Str` below); all scanning
  functions work over character lists exactly as the source works over
  string indices.
* JS numbers that are used as integers are embedded as `Int` (or `Nat`
  where the source guarantees non-negativity); durations that undergo the
  `* 1.5` backoff multiplication are embedded as `Rat` so the arithmetic
  is exact.
* `String.prototype.localeCompare(·, 'ko')` is a host collation; it is
  abstracted as an explicit comparison parameter `lc : Str → Str → Int`
  (only the sign of the returned number is ever used by the source).
* Platform effects (network fetch, blob decoding, `uuidv4`, timers) are
  abstracted as explicit oracles passed to the embedded functions; each
  embedded function records the observable effects (calls made, waits
  performed) it would have produced.
* Loops whose traversal is not structural are embedded with an explicit
  fuel parameter so that every definition is executable by the kernel;
  the fuel is chosen from the source's own bound where one exists
  (`maxIterations = 10000`) and from the input size otherwise.
-/

namespace TCG

/-- Characters of a JavaScript string. -/
abbrev Str := List Char

/-- The set of characters matched by the JS regex class `\s` and removed by
`String.prototype.trim` (ECMAScript WhiteSpace plus LineTerminator). -/
def jsWs (c : Char) : Bool :=
  let n := c.toNat
  n == 0x09 || n == 0x0A || n == 0x0B || n == 0x0C || n == 0x0D ||
  n == 0x20 || n == 0xA0 || n == 0x1680 ||
  (0x2000 ≤ n && n ≤ 0x200A) ||
  n == 0x2028 || n == 0x2029 || n == 0x202F || n == 0x205F ||
  n == 0x3000 || n == 0xFEFF

/-- Drop trailing characters satisfying `p` (helper for `jsTrim`). -/
def dropTrailing (p : Char → Bool) (l : Str) : Str :=
  (l.reverse.dropWhile p).reverse

/-- `String.prototype.trim`: strip leading and trailing JS whitespace. -/
def jsTrim (l : Str) : Str :=
  dropTrailing jsWs (l.dropWhile jsWs)

/-- A string is trimmed when neither end carries JS whitespace. -/
def isTrimmed (l : Str) : Prop :=
  (∀ c, l.head? = some c → jsWs c = false) ∧
  (∀ c, l.getLast? = some c → jsWs c = false)

instance (l : Str) : Decidable (isTrimmed l) := by
  unfold isTrimmed
  exact instDecidableAnd

/-- `String.prototype.includes`: substring containment. -/
def containsSub (p : Str) (s : Str) : Bool :=
  match s with
  | [] => p.isEmpty
  | _ :: t => p.isPrefixOf s || containsSub p t

theorem containsSub_append_left {p a : Str} (h : containsSub p a = true) (b : Str) :
    containsSub p (a ++ b) = true := by
  induction a with
  | nil =>
    cases p with
    | nil => cases b with
      | nil => rfl
      | cons x xs => simp [containsSub, List.isPrefixOf]
    | cons q qs => simp [containsSub, List.isEmpty] at h
  | cons x xs ih =>
    simp only [containsSub, Bool.or_eq_true] at h ⊢
    rcases h with h | h
    · left
      have h' : p <+: x :: xs := by simpa using h
      have : p <+: (x :: xs) ++ b := h'.trans (List.prefix_append _ _)
      simpa using this
    · right
      exact ih h

/-! ## Record model (`types.ts` `TestCase`)

`id` is a process-unique string assigned on creation; `no` is a JS number
which the functions below only ever read for sorting hints and overwrite
with small positive integers, so it is embedded as `Int`. -/

structure TestCase where
  id : Str
  no : Int
  title : Str
  depth1 : Str
  depth2 : Str
  depth3 : Str
  precondition : Str
  steps : Str
  expectedResult : Str
deriving DecidableEq, Repr

/-! ## `postProcessTestCases` (geminiService.ts lines 200-224)

The source sorts a copy of the array with a comparator chained over the
trimmed `depth1`, `depth2`, `depth3` fields (ties fall back to the
original relative order: JS `Array.prototype.sort` is stable), then maps
`(tc, index) ↦ { ...tc, no: index + 1 }`.  The comparator calls
`localeCompare(·, 'ko')` only when the two trimmed keys differ as
strings; the collation itself is abstracted as `lc`. -/

/-- The three sort keys of a record, in comparator order. -/
def depthKeys (tc : TestCase) : List Str :=
  [jsTrim tc.depth1, jsTrim tc.depth2, jsTrim tc.depth3]

/-- Lexicographic comparator chain over key lists: at each level, keys that
differ as strings are decided by the collation `lc`; equal keys fall
through; exhausted keys compare as `0` (keep insertion order). -/
def lexCmp (lc : Str → Str → Int) : List Str → List Str → Int
  | [], _ => 0
  | _ :: _, [] => 0
  | x :: xs, y :: ys => if x ≠ y then lc x y else lexCmp lc xs ys

/-- The comparator passed to `sort` in `postProcessTestCases`. -/
def recordCmp (lc : Str → Str → Int) (a b : TestCase) : Int :=
  lexCmp lc (depthKeys a) (depthKeys b)

/-- Boolean "does not need to swap" relation used to run the stable sort. -/
def recordLe (lc : Str → Str → Int) (a b : TestCase) : Bool :=
  recordCmp lc a b ≤ 0

/-- Renumber a list of records sequentially starting at `n`
(`sorted.map((tc, index) => ({ ...tc, no: index + 1 }))` with `n = 1`). -/
def renumberFrom (n : Int) : List TestCase → List TestCase
  | [] => []
  | tc :: rest => { tc with no := n } :: renumberFrom (n + 1) rest

/-- `postProcessTestCases`: stable sort by the depth-key comparator, then
renumber from 1.  JS `Array.prototype.sort` is required to be stable; it
is embedded as the standard stable merge sort. -/
def postProcessTestCases (lc : Str → Str → Int) (testCases : List TestCase) : List TestCase :=
  renumberFrom 1 (testCases.mergeSort (recordLe lc))

/-! ### Facts about `renumberFrom` -/

theorem renumberFrom_map_no (n : Int) (l : List TestCase) :
    (renumberFrom n l).map (fun tc => tc.no) =
      (List.range l.length).map (fun (k : Nat) => n + (k : Int)) := by
  induction l generalizing n with
  | nil => rfl
  | cons tc rest ih =>
    rw [List.length_cons, List.range_succ_eq_map]
    simp only [renumberFrom, List.map_cons, List.map_map, ih (n + 1)]
    refine congrArg₂ _ (by omega) ?_
    apply List.map_congr_left
    intro a _
    simp only [Function.comp_apply]
    push_cast
    omega

theorem renumberFrom_renumberFrom (n : Int) (l : List TestCase) :
    renumberFrom n (renumberFrom n l) = renumberFrom n l := by
  induction l generalizing n with
  | nil => rfl
  | cons tc rest ih => simp [renumberFrom, ih (n + 1)]

theorem renumberFrom_map_erase (n : Int) (l : List TestCase) :
    (renumberFrom n l).map (fun tc => { tc with no := 0 }) =
      l.map (fun tc => { tc with no := 0 }) := by
  induction l generalizing n with
  | nil => rfl
  | cons tc rest ih => simp [renumberFrom, ih (n + 1)]

theorem renumberFrom_map_keys (n : Int) (l : List TestCase) :
    (renumberFrom n l).map depthKeys = l.map depthKeys := by
  induction l generalizing n with
  | nil => rfl
  | cons tc rest ih => simp [renumberFrom, ih (n + 1), depthKeys]

theorem length_renumberFrom (n : Int) (l : List TestCase) :
    (renumberFrom n l).length = l.length := by
  induction l generalizing n with
  | nil => rfl
  | cons tc rest ih => simp [renumberFrom, ih (n + 1)]

/-- C1. Every record of `postProcessTestCases X` carries `no` equal to its
1-based position: the mapped `no` column is literally `[1, …, N]`, hence
the multiset of sequence numbers is `{1, …, N}`, each exactly once. -/
theorem postProcess_no_column (lc : Str → Str → Int) (l : List TestCase) :
    (postProcessTestCases lc l).map (fun tc => tc.no) =
      (List.range' 1 l.length).map (fun (k : Nat) => (k : Int)) := by
  unfold postProcessTestCases
  rw [renumberFrom_map_no, List.length_mergeSort, List.range'_eq_map_range]
  simp only [List.map_map]
  apply List.map_congr_left
  intro a _
  simp only [Function.comp_apply]
  push_cast
  omega

/-- C9. `postProcessTestCases` permutes the input and touches nothing but
the `no` field: after forcing `no := 0` on both sides, output and input
are permutations of one another (so `id`, `title`, the depth fields,
`precondition`, `steps`, `expectedResult` are all preserved and no record
is dropped or duplicated). -/
theorem postProcess_perm_frame (lc : Str → Str → Int) (l : List TestCase) :
    ((postProcessTestCases lc l).map (fun tc => { tc with no := 0 })).Perm
      (l.map (fun tc => { tc with no := 0 })) := by
  unfold postProcessTestCases
  rw [renumberFrom_map_erase]
  exact (List.mergeSort_perm l (recordLe lc)).map _

/-! ### Idempotence of `postProcessTestCases` (C2)

`localeCompare(·, 'ko')` is a host collation.  The idempotence property
is proved for every comparison `lc` that behaves like a (strict) total
order on strings: `≤ 0` is total, transitive, and antisymmetric.  (A
collation with distinct strings comparing equal would make the JS
comparator inconsistent, in which case `Array.prototype.sort` gives no
behavioural guarantee at all.) -/

/-- Totality of `recordLe` given totality of the collation. -/
theorem recordLe_total (lc : Str → Str → Int)
    (hTot : ∀ s t, lc s t ≤ 0 ∨ lc t s ≤ 0) :
    ∀ a b, recordLe lc a b || recordLe lc b a := by
  have key : ∀ xs ys, lexCmp lc xs ys ≤ 0 ∨ lexCmp lc ys xs ≤ 0 := by
    intro xs
    induction xs with
    | nil => intro ys; left; simp [lexCmp]
    | cons x xs ih =>
      intro ys
      cases ys with
      | nil => left; simp [lexCmp]
      | cons y ys =>
        by_cases hxy : x = y
        · subst hxy
          simpa [lexCmp] using ih ys
        · have hyx : y ≠ x := fun h => hxy h.symm
          simpa [lexCmp, hxy, hyx] using hTot x y
  intro a b
  rcases key (depthKeys a) (depthKeys b) with h | h <;>
    simp [recordLe, recordCmp, h]

/-- Transitivity of the comparator chain on equal-length key lists. -/
theorem lexCmp_trans (lc : Str → Str → Int)
    (hTrans : ∀ s t u, lc s t ≤ 0 → lc t u ≤ 0 → lc s u ≤ 0)
    (hAnti : ∀ s t, lc s t ≤ 0 → lc t s ≤ 0 → s = t) :
    ∀ xs ys zs : List Str, xs.length = ys.length → ys.length = zs.length →
      lexCmp lc xs ys ≤ 0 → lexCmp lc ys zs ≤ 0 → lexCmp lc xs zs ≤ 0 := by
  intro xs
  induction xs with
  | nil =>
    intro ys zs hl1 _ _ _
    cases ys with
    | nil => cases zs <;> simp [lexCmp]
    | cons y ys => simp at hl1
  | cons x xs ih =>
    intro ys zs hl1 hl2 h1 h2
    cases ys with
    | nil => simp at hl1
    | cons y ys =>
      cases zs with
      | nil => simp at hl2
      | cons z zs =>
        have hl1' : xs.length = ys.length := by simpa using hl1
        have hl2' : ys.length = zs.length := by simpa using hl2
        by_cases hxy : x = y
        · subst hxy
          by_cases hyz : x = z
          · subst hyz
            simp only [lexCmp, ne_eq, not_true_eq_false, ite_false] at h1 h2 ⊢
            exact ih ys zs hl1' hl2' h1 h2
          · simp only [lexCmp, ne_eq, hyz, not_false_eq_true, ite_true] at h2 ⊢
            exact h2
        · by_cases hyz : y = z
          · subst hyz
            simp only [lexCmp, ne_eq, hxy, not_false_eq_true, ite_true] at h1 ⊢
            exact h1
          · simp only [lexCmp, ne_eq, hxy, hyz, not_false_eq_true, ite_true] at h1 h2
            by_cases hxz : x = z
            · subst hxz
              exact absurd (hAnti x y h1 h2) hxy
            · simp only [lexCmp, ne_eq, hxz, not_false_eq_true, ite_true]
              exact hTrans x y z h1 h2

/-- Transitivity of `recordLe` given the collation laws (the key lists of
two records always have length 3). -/
theorem recordLe_trans (lc : Str → Str → Int)
    (hTrans : ∀ s t u, lc s t ≤ 0 → lc t u ≤ 0 → lc s u ≤ 0)
    (hAnti : ∀ s t, lc s t ≤ 0 → lc t s ≤ 0 → s = t) :
    ∀ a b c, recordLe lc a b → recordLe lc b c → recordLe lc a c := by
  intro a b c h1 h2
  simp only [recordLe, recordCmp, decide_eq_true_eq] at h1 h2 ⊢
  exact lexCmp_trans lc hTrans hAnti (depthKeys a) (depthKeys b) (depthKeys c)
    (by simp [depthKeys]) (by simp [depthKeys]) h1 h2

/-- The comparator only reads the depth keys, so `Pairwise` transfers
along `renumberFrom`. -/
theorem pairwise_recordLe_renumberFrom (lc : Str → Str → Int) (n : Int)
    (l : List TestCase) (h : l.Pairwise (fun a b => recordLe lc a b = true)) :
    (renumberFrom n l).Pairwise (fun a b => recordLe lc a b = true) := by
  have hconv : ∀ (l'' : List TestCase),
      l''.Pairwise (fun a b => recordLe lc a b = true) ↔
        (l''.map depthKeys).Pairwise (fun u v => lexCmp lc u v ≤ 0) := by
    intro l''
    rw [List.pairwise_map]
    constructor
    · exact fun hp => hp.imp (fun hab => by simpa [recordLe, recordCmp] using hab)
    · exact fun hp => hp.imp (fun hab => by simpa [recordLe, recordCmp] using hab)
  rw [hconv, renumberFrom_map_keys, ← hconv]
  exact h

/-- C2. `postProcessTestCases` is idempotent: applying the final
sort-and-renumber step twice equals applying it once, for every record
set, whenever the underlying collation `lc` orders strings totally
(`≤ 0` total, transitive and antisymmetric — the behaviour contract of
`localeCompare` under which JS `sort` is specified). -/
theorem postProcess_idempotent (lc : Str → Str → Int)
    (hTot : ∀ s t, lc s t ≤ 0 ∨ lc t s ≤ 0)
    (hTrans : ∀ s t u, lc s t ≤ 0 → lc t u ≤ 0 → lc s u ≤ 0)
    (hAnti : ∀ s t, lc s t ≤ 0 → lc t s ≤ 0 → s = t)
    (l : List TestCase) :
    postProcessTestCases lc (postProcessTestCases lc l) =
      postProcessTestCases lc l := by
  have hsorted : (l.mergeSort (recordLe lc)).Pairwise
      (fun a b => recordLe lc a b = true) := by
    have := @List.sorted_mergeSort TestCase (recordLe lc)
      (fun a b c => recordLe_trans lc hTrans hAnti a b c)
      (fun a b => recordLe_total lc hTot a b) l
    exact this
  have hsorted' := pairwise_recordLe_renumberFrom lc 1 _ hsorted
  calc postProcessTestCases lc (postProcessTestCases lc l)
      = renumberFrom 1 ((renumberFrom 1 (l.mergeSort (recordLe lc))).mergeSort
          (recordLe lc)) := rfl
    _ = renumberFrom 1 (renumberFrom 1 (l.mergeSort (recordLe lc))) := by
          rw [List.mergeSort_of_sorted hsorted']
    _ = renumberFrom 1 (l.mergeSort (recordLe lc)) :=
          renumberFrom_renumberFrom 1 _
    _ = postProcessTestCases lc l := rfl

/-! ### A concrete lawful collation, for the witness

Code-point lexicographic comparison; it satisfies the three collation
laws assumed by `postProcess_idempotent`. -/

/-- Code-point lexicographic string comparison. -/
def cpCmp : Str → Str → Int
  | [], [] => 0
  | [], _ :: _ => -1
  | _ :: _, [] => 1
  | a :: as, b :: bs =>
    if a.toNat < b.toNat then -1
    else if b.toNat < a.toNat then 1
    else cpCmp as bs

theorem cpCmp_total : ∀ s t, cpCmp s t ≤ 0 ∨ cpCmp t s ≤ 0 := by
  intro s
  induction s with
  | nil => intro t; left; cases t <;> simp [cpCmp]
  | cons a as ih =>
    intro t
    cases t with
    | nil => right; simp [cpCmp]
    | cons b bs =>
      rcases Nat.lt_trichotomy a.toNat b.toNat with h | h | h
      · left; simp [cpCmp, h]
      · have hh : ¬ a.toNat < b.toNat := by omega
        have hh' : ¬ b.toNat < a.toNat := by omega
        rcases ih bs with hc | hc
        · left; simpa [cpCmp, hh, hh'] using hc
        · right; simpa [cpCmp, hh, hh'] using hc
      · right; simp [cpCmp, h]

theorem cpCmp_le_iff : ∀ s t, cpCmp s t ≤ 0 ↔ (cpCmp s t = -1 ∨ cpCmp s t = 0) := by
  intro s t
  constructor
  · intro h
    induction s generalizing t with
    | nil => cases t <;> simp_all [cpCmp]
    | cons a as ih =>
      cases t with
      | nil => simp [cpCmp] at h
      | cons b bs =>
        by_cases h1 : a.toNat < b.toNat
        · left; simp [cpCmp, h1]
        · by_cases h2 : b.toNat < a.toNat
          · simp [cpCmp, h1, h2] at h
          · simp only [cpCmp, h1, h2, if_false] at h ⊢
            exact ih bs h
  · rintro (h | h) <;> omega

theorem cpCmp_anti : ∀ s t, cpCmp s t ≤ 0 → cpCmp t s ≤ 0 → s = t := by
  intro s
  induction s with
  | nil => intro t h1 h2; cases t with
    | nil => rfl
    | cons b bs => simp [cpCmp] at h2
  | cons a as ih =>
    intro t h1 h2
    cases t with
    | nil => simp [cpCmp] at h1
    | cons b bs =>
      by_cases hab : a.toNat < b.toNat
      · have hnb : ¬ b.toNat < a.toNat := by omega
        simp [cpCmp, hnb, hab] at h2
      · by_cases hba : b.toNat < a.toNat
        · simp [cpCmp, hab, hba] at h1
        · have hval : a = b := by
            have hn : a.toNat = b.toNat := by omega
            exact Char.ext_iff.mpr (UInt32.ext_iff.mpr hn)
          subst hval
          simp only [cpCmp, lt_self_iff_false, ite_false] at h1 h2
          rw [ih bs h1 h2]

theorem cpCmp_trans : ∀ s t u, cpCmp s t ≤ 0 → cpCmp t u ≤ 0 → cpCmp s u ≤ 0 := by
  intro s
  induction s with
  | nil => intro t u _ _; cases u <;> simp [cpCmp]
  | cons a as ih =>
    intro t u h1 h2
    cases t with
    | nil => simp [cpCmp] at h1
    | cons b bs =>
      cases u with
      | nil => simp [cpCmp] at h2
      | cons c cs =>
        by_cases hab : a.toNat < b.toNat
        · by_cases hbc : b.toNat < c.toNat
          · have hac : a.toNat < c.toNat := by omega
            simp [cpCmp, hac]
          · by_cases hcb : c.toNat < b.toNat
            · simp [cpCmp, hbc, hcb] at h2
            · have hac : a.toNat < c.toNat := by omega
              simp [cpCmp, hac]
        · by_cases hba : b.toNat < a.toNat
          · simp [cpCmp, hab, hba] at h1
          · have hab' : a.toNat = b.toNat := by omega
            simp only [cpCmp, hab, hba, ite_false] at h1
            by_cases hbc : b.toNat < c.toNat
            · have hac : a.toNat < c.toNat := by omega
              simp [cpCmp, hac]
            · by_cases hcb : c.toNat < b.toNat
              · simp [cpCmp, hbc, hcb] at h2
              · have hnac : ¬ a.toNat < c.toNat := by omega
                have hnca : ¬ c.toNat < a.toNat := by omega
                simp only [cpCmp, hbc, hcb, ite_false] at h2
                simp only [cpCmp, hnac, hnca, ite_false]
                exact ih bs cs h1 h2

/-- Shorthand for building a record that only varies in its category path
and sequence number (all other fields empty). -/
def mkTC (d1 : Str) (n : Int) : TestCase :=
  { id := [], no := n, title := [], depth1 := d1, depth2 := [], depth3 := [],
    precondition := [], steps := [], expectedResult := [] }

/-- Witness for C2: the idempotence theorem applied to a concrete lawful
collation (code-point order) and a concrete unsorted record set. -/
theorem postProcess_idempotent_witness :
    postProcessTestCases cpCmp
        (postProcessTestCases cpCmp [mkTC ("b".toList) 5, mkTC ("a".toList) 9]) =
      postProcessTestCases cpCmp [mkTC ("b".toList) 5, mkTC ("a".toList) 9] :=
  postProcess_idempotent cpCmp cpCmp_total cpCmp_trans cpCmp_anti _

/-! ## `normalizeTestCases` (geminiService.ts, second variant, lines 732-756)

The normalizer trims each text field; in `steps` and `precondition` it
replaces `/(\s+)(\d+\.)(?!\d)/g` by `'\n$2'` (force a newline before a
numbered-list marker) and strips one leading newline; in `steps` it then
splits on `'\n'`, trims each line and strips one trailing period
(`line.trim().replace(/\.$/, '')`), and rejoins with `'\n'`. -/

/-- The JS regex class `\d` (exactly the ASCII digits). -/
def isDig (c : Char) : Bool :=
  48 ≤ c.toNat && c.toNat ≤ 57

/-- First character is a digit (the `(?!\d)` lookahead reads false at the
end of input). -/
def headIsDigit (l : Str) : Bool :=
  match l with
  | [] => false
  | c :: _ => isDig c

/-- Attempted match of `(\s+)(\d+\.)(?!\d)` at the head of `l` (the head
is known to be whitespace): greedy whitespace run, then a nonempty greedy
digit run, a period, and a negative digit lookahead.  Returns the
captured digit run and the remainder after the period. -/
def tryMark (l : Str) : Option (Str × Str) :=
  let r1 := l.dropWhile jsWs
  let d := r1.takeWhile isDig
  let r2 := r1.dropWhile isDig
  if d.isEmpty then none
  else
    match r2 with
    | [] => none
    | c :: r3 => if c == '.' && !(headIsDigit r3) then some (d, r3) else none

/-- One pass of `.replace(/(\s+)(\d+\.)(?!\d)/g, '\n$2')`: scan left to
right; at a whitespace character attempt the match; on success emit
`'\n'` plus the captured `\d+\.` and continue after the match, otherwise
copy one character.  Fuel-driven so the definition is executable; the
wrapper supplies `fuel = l.length`. -/
def scanReplStep (scan : Str → Str) (c : Char) (cs : Str) : Str :=
  if jsWs c then
    match tryMark (c :: cs) with
    | some (d, rest) => '\n' :: (d ++ '.' :: scan rest)
    | none => c :: scan cs
  else c :: scan cs

def scanReplFuel : Nat → Str → Str
  | 0, l => l
  | _ + 1, [] => []
  | fuel + 1, c :: cs => scanReplStep (scanReplFuel fuel) c cs

/-- The global newline-forcing replacement on a whole string. -/
def scanRepl (l : Str) : Str :=
  scanReplFuel l.length l

/-- `.replace(/^\n/, '')`: drop one leading newline if present. -/
def dropLeadNl (l : Str) : Str :=
  match l with
  | [] => []
  | c :: cs => if c == '\n' then cs else c :: cs

/-- The two `replace` calls applied to `steps`/`precondition` after
trimming. -/
def formatMarks (l : Str) : Str :=
  dropLeadNl (scanRepl l)

/-- `String.prototype.split('\n')` (always returns at least one chunk). -/
def splitLines : Str → List Str
  | [] => [[]]
  | c :: cs =>
    let r := splitLines cs
    if c == '\n' then [] :: r
    else
      match r with
      | [] => [[c]]
      | h :: t => (c :: h) :: t

/-- `Array.prototype.join('\n')`. -/
def joinLines : List Str → Str
  | [] => []
  | [l] => l
  | l :: ls => l ++ '\n' :: joinLines ls

/-- `.replace(/\.$/, '')`: drop one trailing period if present. -/
def stripPeriod (l : Str) : Str :=
  if l.getLast? == some '.' then l.dropLast else l

/-- The `steps` pipeline of the second `normalizeTestCases` variant. -/
def normalizeSteps (s : Str) : Str :=
  joinLines (((splitLines (formatMarks (jsTrim s))).map
    (fun line => stripPeriod (jsTrim line))))

/-- The `precondition` pipeline (trim, force newlines, drop one leading
newline). -/
def normalizePre (s : Str) : Str :=
  formatMarks (jsTrim s)

/-- `normalizeTestCases` (second variant): trim `title` and
`expectedResult`, run the marker pipeline on `precondition`, and the
marker-plus-line pipeline on `steps`.  All other fields are spread
through unchanged. -/
def normalizeTestCases (tcs : List TestCase) : List TestCase :=
  tcs.map (fun tc =>
    { tc with
      title := jsTrim tc.title
      steps := normalizeSteps tc.steps
      precondition := normalizePre tc.precondition
      expectedResult := jsTrim tc.expectedResult })

/-! ### Marker predicates

`markerStarts l` holds when `l` begins with `\d+\.(?!\d)` — a
numbered-list marker.  `marksOk` states the claim's newline property: a
whitespace character immediately preceding a marker is a newline.
`lineOk` is the within-line strengthening: no whitespace immediately
precedes a marker at all. -/

def markerCont (l : Str) : Bool :=
  match l with
  | [] => false
  | c :: cs => if isDig c then markerCont cs else (c == '.') && !(headIsDigit cs)

def markerStarts (l : Str) : Bool :=
  match l with
  | [] => false
  | c :: cs => isDig c && markerCont cs

def marksOk (l : Str) : Bool :=
  match l with
  | [] => true
  | c :: cs => (!(jsWs c) || !(markerStarts cs) || (c == '\n')) && marksOk cs

def lineOk (l : Str) : Bool :=
  match l with
  | [] => true
  | c :: cs => (!(jsWs c) || !(markerStarts cs)) && lineOk cs

/-! ### Basic character facts -/

theorem isDig_not_ws {c : Char} (h : isDig c = true) : jsWs c = false := by
  simp only [isDig, Bool.and_eq_true, decide_eq_true_eq] at h
  simp only [jsWs, Bool.or_eq_false_iff, beq_eq_false_iff_ne, ne_eq,
    Bool.and_eq_false_iff, decide_eq_false_iff_not]
  omega

theorem ws_not_dig {c : Char} (h : jsWs c = true) : isDig c = false := by
  cases hd : isDig c with
  | false => rfl
  | true => rw [isDig_not_ws hd] at h; cases h

theorem nl_ws : jsWs '\n' = true := by decide

theorem ws_ne_period {c : Char} (h : jsWs c = true) : (c == '.') = false := by
  cases hq : c == '.' with
  | false => rfl
  | true =>
    have : c = '.' := by simpa using hq
    subst this
    simp [jsWs] at h

/-! ### Split/join facts -/

theorem splitLines_ne_nil (s : Str) : splitLines s ≠ [] := by
  cases s with
  | nil => simp [splitLines]
  | cons c cs =>
    simp only [splitLines]
    by_cases h : c == '\n'
    · simp [h]
    · simp only [h, if_false]
      cases splitLines cs <;> simp

theorem mem_splitLines_no_nl (s : Str) : ∀ l ∈ splitLines s, '\n' ∉ l := by
  induction s with
  | nil =>
    intro l hl
    simp only [splitLines, List.mem_singleton] at hl
    subst hl
    simp
  | cons c cs ih =>
    intro l hl
    simp only [splitLines] at hl
    by_cases h : c == '\n'
    · simp only [h, if_true] at hl
      rcases List.mem_cons.mp hl with h' | h'
      · simp [h']
      · exact ih l h'
    · simp only [h, if_false] at hl
      rcases hr : splitLines cs with _ | ⟨hh, tt⟩
      · exact absurd hr (splitLines_ne_nil cs)
      · rw [hr] at hl
        rcases List.mem_cons.mp hl with h' | h'
        · subst h'
          intro hmem
          rcases List.mem_cons.mp hmem with h'' | h''
          · exact absurd h''.symm (by simpa using h)
          · exact ih hh (by rw [hr]; exact List.mem_cons_self _ _) h''
        · exact ih l (by rw [hr]; exact List.mem_cons_of_mem _ h')

theorem joinLines_splitLines (s : Str) : joinLines (splitLines s) = s := by
  induction s with
  | nil => rfl
  | cons c cs ih =>
    simp only [splitLines]
    by_cases h : c == '\n'
    · have hc : c = '\n' := by simpa using h
      subst hc
      rw [if_pos (show ('\n' == '\n') = true by decide)]
      rcases hr : splitLines cs with _ | ⟨hh, tt⟩
      · exact absurd hr (splitLines_ne_nil cs)
      · rw [hr] at ih
        simpa [joinLines] using ih
    · simp only [h, if_false]
      rcases hr : splitLines cs with _ | ⟨hh, tt⟩
      · exact absurd hr (splitLines_ne_nil cs)
      · rw [hr] at ih
        cases tt with
        | nil => simpa [joinLines] using congrArg (c :: ·) ih
        | cons t2 ts => simpa [joinLines] using congrArg (c :: ·) ih

theorem splitLines_append_cons_nl (l : Str) (hn : '\n' ∉ l) (s : Str) :
    splitLines (l ++ '\n' :: s) = l :: splitLines s := by
  induction l with
  | nil => simp [splitLines]
  | cons c cs ih =>
    have hc : ¬ (c == '\n') := by
      intro h
      exact hn (by simp [show c = '\n' from by simpa using h])
    have hc' : (c == '\n') = false := by simpa using hc
    have hcs : '\n' ∉ cs := fun h => hn (List.mem_cons_of_mem _ h)
    simp [splitLines, ih hcs, hc']

theorem splitLines_joinLines (Ls : List Str) (hne : Ls ≠ [])
    (hnl : ∀ l ∈ Ls, '\n' ∉ l) : splitLines (joinLines Ls) = Ls := by
  induction Ls with
  | nil => exact absurd rfl hne
  | cons l ls ih =>
    cases ls with
    | nil =>
      simp only [joinLines]
      have hl : '\n' ∉ l := hnl l (List.mem_cons_self _ _)
      clear hne hnl ih
      induction l with
      | nil => rfl
      | cons c cs ihc =>
        have hc : ¬ (c == '\n') := by
          intro h
          exact hl (by simp [show c = '\n' from by simpa using h])
        have hc' : (c == '\n') = false := by simpa using hc
        have hcs : '\n' ∉ cs := fun h => hl (List.mem_cons_of_mem _ h)
        simp [splitLines, ihc hcs, hc']
    | cons l2 ls2 =>
      have hstep : joinLines (l :: l2 :: ls2) = l ++ '\n' :: joinLines (l2 :: ls2) := rfl
      rw [hstep, splitLines_append_cons_nl l (hnl l (List.mem_cons_self _ _))]
      rw [ih (by simp) (fun x hx => hnl x (List.mem_cons_of_mem _ hx))]

/-! ### Marker predicates under append -/

theorem headIsDigit_append_nl (x y : Str) :
    headIsDigit (x ++ '\n' :: y) = headIsDigit x := by
  cases x with
  | nil => simp [headIsDigit, isDig]
  | cons c cs => rfl

theorem markerCont_append_nl (x y : Str) :
    markerCont (x ++ '\n' :: y) = markerCont x := by
  induction x with
  | nil =>
    simp [markerCont, isDig, headIsDigit]
  | cons c cs ih =>
    simp only [List.cons_append, markerCont]
    by_cases h : isDig c
    · simp [h, ih]
    · simp [h, headIsDigit_append_nl]

theorem markerStarts_append_nl (x y : Str) :
    markerStarts (x ++ '\n' :: y) = markerStarts x := by
  cases x with
  | nil => simp [markerStarts, markerCont, isDig]
  | cons c cs => simp [markerStarts, markerCont_append_nl]

theorem headIsDigit_append_single (x : Str) {c : Char} (hc : isDig c = false) :
    headIsDigit (x ++ [c]) = headIsDigit x := by
  cases x with
  | nil => simp [headIsDigit, hc]
  | cons a as => rfl

theorem markerCont_append_single {x : Str} {c : Char} (hc : isDig c = false)
    (h : markerCont x = true) : markerCont (x ++ [c]) = true := by
  induction x with
  | nil => simp [markerCont] at h
  | cons a as ih =>
    simp only [markerCont] at h
    simp only [List.cons_append, markerCont]
    by_cases ha : isDig a
    · simp only [ha, if_true] at h ⊢
      exact ih h
    · simp only [ha, if_false] at h ⊢
      simpa [headIsDigit_append_single as hc] using h

theorem markerStarts_append_single {x : Str} {c : Char} (hc : isDig c = false)
    (h : markerStarts x = true) : markerStarts (x ++ [c]) = true := by
  cases x with
  | nil => simp [markerStarts] at h
  | cons a as =>
    simp only [List.cons_append, markerStarts, Bool.and_eq_true] at h ⊢
    exact ⟨h.1, markerCont_append_single hc h.2⟩

/-! ### Facts about `tryMark` and `scanReplFuel` -/

theorem tryMark_some {l d rest : Str} (h : tryMark l = some (d, rest)) :
    l = l.takeWhile jsWs ++ (d ++ '.' :: rest) ∧ d ≠ [] ∧
      (∀ x ∈ d, isDig x = true) ∧ headIsDigit rest = false := by
  simp only [tryMark] at h
  split at h
  · cases h
  · split at h
    · cases h
    · rename_i hcond r2v cv r3v hreq
      split at h
      · rename_i hpl
        injection h with h'
        injection h' with hd hrest
        subst hd
        subst hrest
        simp only [Bool.and_eq_true, beq_iff_eq, Bool.not_eq_true'] at hpl
        refine ⟨?_, ?_, ?_, hpl.2⟩
        · conv_lhs => rw [← List.takeWhile_append_dropWhile jsWs l]
          congr 1
          conv_lhs =>
            rw [← List.takeWhile_append_dropWhile isDig (l.dropWhile jsWs)]
          rw [hreq, hpl.1]
        · intro hnil
          rw [hnil] at hcond
          simp at hcond
        · intro x hx
          exact List.mem_takeWhile_imp hx
      · cases h

theorem tryMark_some_length {l d rest : Str} (h : tryMark l = some (d, rest)) :
    rest.length < l.length := by
  obtain ⟨hdec, hd, _, _⟩ := tryMark_some h
  conv_rhs => rw [hdec]
  simp only [List.length_append, List.length_cons]
  cases d with
  | nil => exact absurd rfl hd
  | cons a as => simp only [List.length_cons]; omega

theorem scanReplFuel_nonws {fuel : Nat} {c : Char} (cs : Str)
    (hc : jsWs c = false) :
    scanReplFuel (fuel + 1) (c :: cs) = c :: scanReplFuel fuel cs := by
  rw [scanReplFuel, scanReplStep]
  rw [if_neg (by simp [hc])]

/-- Head digit-status is preserved by the replacement scan. -/
theorem headIsDigit_scanReplFuel (fuel : Nat) (m : Str) (h : m.length ≤ fuel) :
    headIsDigit (scanReplFuel fuel m) = headIsDigit m := by
  cases fuel with
  | zero => rfl
  | succ fuel =>
    cases m with
    | nil => rfl
    | cons c cs =>
      by_cases hc : jsWs c = true
      · rw [scanReplFuel, scanReplStep, if_pos hc]
        rcases htm : tryMark (c :: cs) with _ | ⟨d, rest⟩
        · simp only [headIsDigit]
        · simp only [headIsDigit]
          rw [ws_not_dig hc]
          decide
      · rw [scanReplFuel_nonws cs (by simpa using hc)]
        rfl

/-- `markerCont` is invariant under the replacement scan. -/
theorem markerCont_scanReplFuel (fuel : Nat) (m : Str) (h : m.length ≤ fuel) :
    markerCont (scanReplFuel fuel m) = markerCont m := by
  induction fuel generalizing m with
  | zero => rfl
  | succ fuel ih =>
    cases m with
    | nil => rfl
    | cons c cs =>
      have hlen : cs.length ≤ fuel := by
        simp only [List.length_cons] at h
        omega
      by_cases hdig : isDig c = true
      · have hws : jsWs c = false := isDig_not_ws hdig
        rw [scanReplFuel_nonws cs hws]
        simp only [markerCont]
        rw [if_pos hdig, if_pos hdig]
        exact ih cs hlen
      · have hdig' : isDig c = false := by simpa using hdig
        by_cases hws : jsWs c = true
        · have hnp : (c == '.') = false := ws_ne_period hws
          rw [scanReplFuel, scanReplStep, if_pos hws]
          rcases htm : tryMark (c :: cs) with _ | ⟨d, rest⟩
          · simp [markerCont, hdig', hnp]
          · simp [markerCont, hdig', hnp,
              show isDig '\n' = false from by decide,
              show ('\n' == '.') = false from by decide]
        · rw [scanReplFuel_nonws cs (by simpa using hws)]
          simp only [markerCont, hdig', Bool.false_eq_true, if_false]
          rw [headIsDigit_scanReplFuel fuel cs hlen]

/-- `markerStarts` is invariant under the replacement scan. -/
theorem markerStarts_scanReplFuel (fuel : Nat) (m : Str) (h : m.length ≤ fuel) :
    markerStarts (scanReplFuel fuel m) = markerStarts m := by
  cases fuel with
  | zero => rfl
  | succ fuel =>
    cases m with
    | nil => rfl
    | cons c cs =>
      have hlen : cs.length ≤ fuel := by
        simp only [List.length_cons] at h
        omega
      by_cases hws : jsWs c = true
      · have hdig : isDig c = false := ws_not_dig hws
        rw [scanReplFuel, scanReplStep, if_pos hws]
        rcases htm : tryMark (c :: cs) with _ | ⟨d, rest⟩
        · simp [markerStarts, hdig]
        · simp [markerStarts, hdig, show isDig '\n' = false from by decide]
      · rw [scanReplFuel_nonws cs (by simpa using hws)]
        simp only [markerStarts]
        rw [markerCont_scanReplFuel fuel cs hlen]

/-- If a string begins with a marker, `dropWhile isDig` exposes the
period with a non-digit after it. -/
theorem markerCont_dropWhile {m : Str} (h : markerCont m = true) :
    ∃ r', m.dropWhile isDig = '.' :: r' ∧ headIsDigit r' = false := by
  induction m with
  | nil => simp [markerCont] at h
  | cons c cs ih =>
    simp only [markerCont] at h
    by_cases hdig : isDig c = true
    · rw [if_pos hdig] at h
      simpa [List.dropWhile_cons, hdig] using ih h
    · have hdig' : isDig c = false := by simpa using hdig
      rw [if_neg hdig] at h
      simp only [Bool.and_eq_true, beq_iff_eq, Bool.not_eq_true'] at h
      obtain ⟨hceq, hhd⟩ := h
      subst hceq
      refine ⟨cs, ?_, hhd⟩
      simp [List.dropWhile_cons, hdig']

/-- A whitespace character directly followed by a marker always matches
`(\s+)(\d+\.)(?!\d)`. -/
theorem tryMark_of_markerStarts {c : Char} {m : Str} (hc : jsWs c = true)
    (h : markerStarts m = true) : tryMark (c :: m) ≠ none := by
  cases m with
  | nil => simp [markerStarts] at h
  | cons d0 m' =>
    simp only [markerStarts, Bool.and_eq_true] at h
    obtain ⟨hd0, hcont⟩ := h
    have hdw : (c :: d0 :: m').dropWhile jsWs = d0 :: m' := by
      simp [List.dropWhile_cons, hc, isDig_not_ws hd0]
    obtain ⟨r', hr', hhd⟩ := markerCont_dropWhile hcont
    simp only [tryMark, hdw]
    have htk : ¬ ((d0 :: m').takeWhile isDig).isEmpty := by
      simp [List.takeWhile_cons, hd0]
    rw [if_neg htk]
    have hdd : (d0 :: m').dropWhile isDig = '.' :: r' := by
      simp [List.dropWhile_cons, hd0, hr']
    rw [hdd]
    simp [hhd]

/-- Whitespace-only prefixes do not affect `marksOk` of the suffix. -/
theorem marksOk_append_nonws {d : Str} (hd : ∀ x ∈ d, jsWs x = false)
    {y : Str} (hy : marksOk y = true) : marksOk (d ++ y) = true := by
  induction d with
  | nil => simpa using hy
  | cons a as ih =>
    have ha : jsWs a = false := hd a (List.mem_cons_self _ _)
    simp only [List.cons_append, marksOk, ha]
    simp only [Bool.not_false, Bool.true_or, Bool.true_and]
    exact ih (fun x hx => hd x (List.mem_cons_of_mem _ hx))

/-- Main scan invariant: after the newline-forcing replacement, every
whitespace character immediately preceding a marker is a newline. -/
theorem marksOk_scanReplFuel (fuel : Nat) (l : Str) (h : l.length ≤ fuel) :
    marksOk (scanReplFuel fuel l) = true := by
  induction fuel using Nat.strong_induction_on generalizing l with
  | _ fuel ih =>
    cases fuel with
    | zero =>
      have : l = [] := List.length_eq_zero.mp (Nat.le_zero.mp h)
      subst this
      rfl
    | succ fuel =>
      cases l with
      | nil => rfl
      | cons c cs =>
        have hlen : cs.length ≤ fuel := by
          simp only [List.length_cons] at h
          omega
        by_cases hws : jsWs c = true
        · rw [scanReplFuel, scanReplStep, if_pos hws]
          rcases htm : tryMark (c :: cs) with _ | ⟨d, rest⟩
          · have hms : markerStarts cs = false := by
              cases hm : markerStarts cs with
              | false => rfl
              | true => exact absurd htm (tryMark_of_markerStarts hws hm)
            simp only [marksOk, Bool.and_eq_true]
            refine ⟨?_, ih fuel (Nat.lt_succ_self _) cs hlen⟩
            rw [markerStarts_scanReplFuel fuel cs hlen, hms]
            simp
          · obtain ⟨_, _, hdig, _⟩ := tryMark_some htm
            have hrl : rest.length ≤ fuel := by
              have := tryMark_some_length htm
              simp only [List.length_cons] at this
              omega
            simp only [marksOk, Bool.and_eq_true]
            constructor
            · simp
            · apply marksOk_append_nonws (fun x hx => isDig_not_ws (hdig x hx))
              simp only [marksOk, Bool.and_eq_true]
              refine ⟨by simp [jsWs], ih fuel (Nat.lt_succ_self _) rest hrl⟩
        · rw [scanReplFuel_nonws cs (by simpa using hws)]
          simp only [marksOk, Bool.and_eq_true]
          refine ⟨?_, ih fuel (Nat.lt_succ_self _) cs hlen⟩
          simp [show jsWs c = false by simpa using hws]

/-- `marksOk` holds of the full replacement `scanRepl`. -/
theorem marksOk_scanRepl (l : Str) : marksOk (scanRepl l) = true :=
  marksOk_scanReplFuel l.length l (Nat.le_refl _)

/-! ### Trimmedness facts -/

theorem head?_dropWhile_false {p : Char → Bool} {l : Str} {c : Char}
    (h : (l.dropWhile p).head? = some c) : p c = false := by
  have := List.head?_dropWhile_not p l
  rw [h] at this
  exact this

theorem head?_jsTrim {l : Str} {c : Char} (h : (jsTrim l).head? = some c) :
    jsWs c = false := by
  have hpre : jsTrim l <+: l.dropWhile jsWs := by
    have hs : (l.dropWhile jsWs).reverse.dropWhile jsWs <:+ (l.dropWhile jsWs).reverse :=
      List.dropWhile_suffix jsWs
    have := List.reverse_prefix.mpr hs
    simpa [jsTrim, dropTrailing] using this
  obtain ⟨t, ht⟩ := hpre
  cases hj : jsTrim l with
  | nil => rw [hj] at h; cases h
  | cons x xs =>
    rw [hj] at h ht
    injection h with h
    subst h
    apply @head?_dropWhile_false jsWs l _
    rw [← ht]
    rfl

theorem getLast?_jsTrim {l : Str} {c : Char} (h : (jsTrim l).getLast? = some c) :
    jsWs c = false := by
  have h' := h
  simp only [jsTrim, dropTrailing, List.getLast?_reverse] at h'
  exact head?_dropWhile_false h'

theorem isTrimmed_jsTrim (l : Str) : isTrimmed (jsTrim l) := by
  constructor
  · intro c h
    exact head?_jsTrim h
  · intro c h
    exact getLast?_jsTrim h

theorem scanReplFuel_nil (fuel : Nat) : scanReplFuel fuel [] = [] := by
  cases fuel <;> rfl

theorem scanReplFuel_ws_some {fuel : Nat} {x : Char} {xs d rest : Str}
    (hx : jsWs x = true) (htm : tryMark (x :: xs) = some (d, rest)) :
    scanReplFuel (fuel + 1) (x :: xs) =
      '\n' :: (d ++ '.' :: scanReplFuel fuel rest) := by
  rw [scanReplFuel, scanReplStep, if_pos hx, htm]

theorem scanReplFuel_ws_none {fuel : Nat} {x : Char} {xs : Str}
    (hx : jsWs x = true) (htm : tryMark (x :: xs) = none) :
    scanReplFuel (fuel + 1) (x :: xs) = x :: scanReplFuel fuel xs := by
  rw [scanReplFuel, scanReplStep, if_pos hx, htm]

theorem getLast?_cons_ne_nil {x : Char} {xs : Str} (h : xs ≠ []) :
    (x :: xs).getLast? = xs.getLast? := by
  cases xs with
  | nil => exact absurd rfl h
  | cons y ys => exact List.getLast?_cons_cons

/-- The replacement scan preserves a non-whitespace last character. -/
theorem getLast?_scanReplFuel (fuel : Nat) (l : Str) {c : Char}
    (hf : l.length ≤ fuel) (hc : jsWs c = false) (h : l.getLast? = some c) :
    (scanReplFuel fuel l).getLast? = some c := by
  induction fuel using Nat.strong_induction_on generalizing l with
  | _ fuel ih =>
    cases fuel with
    | zero =>
      have : l = [] := List.length_eq_zero.mp (Nat.le_zero.mp hf)
      subst this
      cases h
    | succ fuel =>
      cases l with
      | nil => cases h
      | cons x xs =>
        have hlen : xs.length ≤ fuel := by
          simp only [List.length_cons] at hf
          omega
        by_cases hx : jsWs x = true
        · rcases htm : tryMark (x :: xs) with _ | ⟨d, rest⟩
          · rw [scanReplFuel_ws_none hx htm]
            cases xs with
            | nil =>
              simp only [List.getLast?_singleton] at h
              injection h with h
              subst h
              rw [hx] at hc
              cases hc
            | cons y ys =>
              rw [List.getLast?_cons_cons] at h
              have hout := ih fuel (Nat.lt_succ_self _) (y :: ys) hlen h
              have hne : scanReplFuel fuel (y :: ys) ≠ [] := by
                intro hnil
                rw [hnil] at hout
                cases hout
              rw [getLast?_cons_ne_nil hne]
              exact hout
          · rw [scanReplFuel_ws_some hx htm]
            obtain ⟨hdec, hd, _, _⟩ := tryMark_some htm
            have hrl : rest.length ≤ fuel := by
              have := tryMark_some_length htm
              simp only [List.length_cons] at this
              omega
            cases rest with
            | nil =>
              have hlast : (x :: xs).getLast? = some '.' := by
                rw [hdec]
                simp
              rw [h] at hlast
              injection hlast with hlast
              subst hlast
              rw [scanReplFuel_nil]
              rw [getLast?_cons_ne_nil (by simp), List.getLast?_append]
              rfl
            | cons r0 rs =>
              obtain ⟨z, hz⟩ : ∃ z, (r0 :: rs).getLast? = some z := by
                cases hg : (r0 :: rs).getLast? with
                | none =>
                  rw [List.getLast?_eq_none_iff] at hg
                  cases hg
                | some z => exact ⟨z, rfl⟩
              have hlast : (x :: xs).getLast? = some z := by
                rw [hdec]
                simp [List.getLast?_append, hz]
              rw [h] at hlast
              injection hlast with hlast
              subst hlast
              have hout := ih fuel (Nat.lt_succ_self _) (r0 :: rs) hrl hz
              have hne : scanReplFuel fuel (r0 :: rs) ≠ [] := by
                intro hnil
                rw [hnil] at hout
                cases hout
              rw [getLast?_cons_ne_nil (by simp), List.getLast?_append,
                getLast?_cons_ne_nil hne, hout]
              rfl
        · have hx' : jsWs x = false := by simpa using hx
          rw [scanReplFuel_nonws xs hx']
          cases xs with
          | nil =>
            simp only [List.getLast?_singleton] at h
            rw [scanReplFuel_nil]
            simpa using h
          | cons y ys =>
            rw [List.getLast?_cons_cons] at h
            have hout := ih fuel (Nat.lt_succ_self _) (y :: ys) hlen h
            have hne : scanReplFuel fuel (y :: ys) ≠ [] := by
              intro hnil
              rw [hnil] at hout
              cases hout
            rw [getLast?_cons_ne_nil hne]
            exact hout

/-- On a trimmed input, the marker pipeline (`scanRepl` plus the leading
newline strip) keeps the string trimmed. -/
theorem isTrimmed_formatMarks {l : Str} (h : isTrimmed l) :
    isTrimmed (formatMarks l) := by
  cases l with
  | nil =>
    show isTrimmed (dropLeadNl (scanRepl []))
    simp only [scanRepl, List.length_nil, scanReplFuel_nil, dropLeadNl]
    unfold isTrimmed
    constructor
    · intro c hc
      cases hc
    · intro c hc
      cases hc
  | cons x xs =>
    have hx : jsWs x = false := h.1 x rfl
    have hscan : scanRepl (x :: xs) = x :: scanReplFuel xs.length xs := by
      show scanReplFuel (x :: xs).length (x :: xs) = _
      rw [List.length_cons, scanReplFuel_nonws xs hx]
    have hxnl : (x == '\n') = false := by
      cases hq : x == '\n' with
      | false => rfl
      | true =>
        have : x = '\n' := by simpa using hq
        subst this
        rw [nl_ws] at hx
        cases hx
    have hfm : formatMarks (x :: xs) = x :: scanReplFuel xs.length xs := by
      rw [formatMarks, hscan, dropLeadNl, if_neg (by simp [hxnl])]
    rw [hfm]
    constructor
    · intro c hc
      injection hc with hc
      subst hc
      exact hx
    · intro c hc
      cases hxs : xs with
      | nil =>
        subst hxs
        rw [scanReplFuel_nil] at hc
        simp only [List.getLast?_singleton] at hc
        injection hc with hc
        subst hc
        exact hx
      | cons y ys =>
        subst hxs
        rcases hg : (y :: ys).getLast? with _ | z
        · rw [List.getLast?_eq_none_iff] at hg
          cases hg
        · have hz : jsWs z = false := h.2 z (by rw [getLast?_cons_ne_nil (by simp), hg])
          have hout := getLast?_scanReplFuel (y :: ys).length (y :: ys)
            (Nat.le_refl _) hz hg
          have hne : scanReplFuel (y :: ys).length (y :: ys) ≠ [] := by
            intro hnil
            rw [hnil] at hout
            cases hout
          rw [getLast?_cons_ne_nil hne, hout] at hc
          injection hc with hc
          subst hc
          exact hz

/-! ### Line-level machinery -/

theorem marksOk_tail {c : Char} {cs : Str} (h : marksOk (c :: cs) = true) :
    marksOk cs = true := by
  simp only [marksOk, Bool.and_eq_true] at h
  exact h.2

theorem lineOk_tail {c : Char} {cs : Str} (h : lineOk (c :: cs) = true) :
    lineOk cs = true := by
  simp only [lineOk, Bool.and_eq_true] at h
  exact h.2

theorem marksOk_of_lineOk {l : Str} (h : lineOk l = true) : marksOk l = true := by
  induction l with
  | nil => rfl
  | cons c cs ih =>
    simp only [lineOk, Bool.and_eq_true, Bool.or_eq_true] at h
    simp only [marksOk, Bool.and_eq_true, Bool.or_eq_true]
    exact ⟨Or.inl h.1, ih h.2⟩

theorem marksOk_dropLeadNl {l : Str} (h : marksOk l = true) :
    marksOk (dropLeadNl l) = true := by
  cases l with
  | nil => rfl
  | cons c cs =>
    simp only [dropLeadNl]
    by_cases hc : (c == '\n') = true
    · rw [if_pos hc]
      exact marksOk_tail h
    · rw [if_neg hc]
      exact h

/-- The whole string starts with a marker iff its first line does. -/
theorem markerStarts_firstLine {m : Str} {h0 : Str} {t : List Str}
    (hs : splitLines m = h0 :: t) : markerStarts m = markerStarts h0 := by
  have hj : joinLines (h0 :: t) = m := by
    rw [← hs, joinLines_splitLines]
  cases t with
  | nil => rw [← hj]; rfl
  | cons t1 ts =>
    have : joinLines (h0 :: t1 :: ts) = h0 ++ '\n' :: joinLines (t1 :: ts) := rfl
    rw [← hj, this, markerStarts_append_nl]

/-- Lines of a string satisfying `marksOk` contain no whitespace directly
before a marker at all. -/
theorem lineOk_of_marksOk {m : Str} (h : marksOk m = true) :
    ∀ l ∈ splitLines m, lineOk l = true := by
  induction m with
  | nil =>
    intro l hl
    simp only [splitLines, List.mem_singleton] at hl
    subst hl
    rfl
  | cons c cs ih =>
    intro l hl
    have hcs := marksOk_tail h
    simp only [splitLines] at hl
    by_cases hc : (c == '\n') = true
    · rw [if_pos hc] at hl
      rcases List.mem_cons.mp hl with h' | h'
      · subst h'; rfl
      · exact ih hcs l h'
    · rw [if_neg hc] at hl
      rcases hr : splitLines cs with _ | ⟨h0, t⟩
      · exact absurd hr (splitLines_ne_nil cs)
      · rw [hr] at hl
        rcases List.mem_cons.mp hl with h' | h'
        · subst h'
          have hcnl : (c == '\n') = false := by
            cases hq : c == '\n' with
            | false => rfl
            | true => exact absurd hq hc
          have hguard : (!(jsWs c) || !(markerStarts cs) || (c == '\n')) = true := by
            have h1 := h
            simp only [marksOk, Bool.and_eq_true] at h1
            exact h1.1
          rw [hcnl, Bool.or_false, markerStarts_firstLine hr] at hguard
          have hline : lineOk h0 = true :=
            ih hcs h0 (by rw [hr]; exact List.mem_cons_self _ _)
          simp [lineOk, hguard, hline]
        · exact ih hcs l (by rw [hr]; exact List.mem_cons_of_mem _ h')

/-- Prepending a clean line and a newline preserves `marksOk`. -/
theorem marksOk_line_append {l : Str} (hl : lineOk l = true) {m : Str}
    (hm : marksOk m = true) : marksOk (l ++ '\n' :: m) = true := by
  induction l with
  | nil =>
    simp only [List.nil_append, marksOk, Bool.and_eq_true, Bool.or_eq_true]
    exact ⟨Or.inr (by decide), hm⟩
  | cons c cs ih =>
    simp only [lineOk, Bool.and_eq_true, Bool.or_eq_true] at hl
    simp only [List.cons_append, marksOk, Bool.and_eq_true, Bool.or_eq_true]
    constructor
    · rcases hl.1 with hh | hh
      · exact Or.inl (Or.inl hh)
      · exact Or.inl (Or.inr (by simpa [markerStarts_append_nl] using hh))
    · exact ih hl.2

/-- Joining clean lines with newlines yields a `marksOk` string. -/
theorem marksOk_joinLines {Ls : List Str} (h : ∀ l ∈ Ls, lineOk l = true) :
    marksOk (joinLines Ls) = true := by
  induction Ls with
  | nil => rfl
  | cons l ls ih =>
    cases ls with
    | nil => exact marksOk_of_lineOk (h l (List.mem_cons_self _ _))
    | cons l2 ls2 =>
      have : joinLines (l :: l2 :: ls2) = l ++ '\n' :: joinLines (l2 :: ls2) := rfl
      rw [this]
      exact marksOk_line_append (h l (List.mem_cons_self _ _))
        (ih (fun x hx => h x (List.mem_cons_of_mem _ hx)))

/-! ### `lineOk` closure under the per-line edits -/

theorem lineOk_concat {u : Str} {c : Char} (hc : isDig c = false)
    (h : lineOk (u ++ [c]) = true) : lineOk u = true := by
  induction u with
  | nil => rfl
  | cons a u' ih =>
    simp only [List.cons_append, lineOk, Bool.and_eq_true, Bool.or_eq_true] at h
    simp only [lineOk, Bool.and_eq_true, Bool.or_eq_true]
    constructor
    · rcases h.1 with hh | hh
      · exact Or.inl hh
      · right
        cases hms : markerStarts u' with
        | false => rfl
        | true =>
          have h2 := markerStarts_append_single hc hms
          exact absurd h2 (by simpa using hh)
    · exact ih h.2

theorem lineOk_dropWhile (p : Char → Bool) {l : Str} (h : lineOk l = true) :
    lineOk (l.dropWhile p) = true := by
  induction l with
  | nil => rfl
  | cons c cs ih =>
    rw [List.dropWhile_cons]
    by_cases hp : p c = true
    · rw [if_pos hp]
      exact ih (lineOk_tail h)
    · rw [if_neg hp]
      exact h

theorem dropTrailing_concat (p : Char → Bool) (u : Str) (a : Char) :
    dropTrailing p (u ++ [a]) =
      if p a = true then dropTrailing p u else u ++ [a] := by
  by_cases hp : p a = true
  · rw [if_pos hp]
    simp [dropTrailing, List.dropWhile_cons, hp]
  · rw [if_neg hp]
    simp [dropTrailing, List.dropWhile_cons, hp]

theorem lineOk_dropTrailing {l : Str} (h : lineOk l = true) :
    lineOk (dropTrailing jsWs l) = true := by
  induction l using List.reverseRecOn with
  | nil => rfl
  | append_singleton u a ih =>
    rw [dropTrailing_concat]
    by_cases hp : jsWs a = true
    · rw [if_pos hp]
      exact ih (lineOk_concat (ws_not_dig hp) h)
    · rw [if_neg hp]
      exact h

theorem lineOk_jsTrim {l : Str} (h : lineOk l = true) :
    lineOk (jsTrim l) = true :=
  lineOk_dropTrailing (lineOk_dropWhile jsWs h)

theorem lineOk_stripPeriod {l : Str} (h : lineOk l = true) :
    lineOk (stripPeriod l) = true := by
  induction l using List.reverseRecOn with
  | nil => rfl
  | append_singleton u a ih =>
    rw [stripPeriod]
    by_cases hp : ((u ++ [a]).getLast? == some '.') = true
    · rw [if_pos hp]
      have ha : a = '.' := by
        rw [List.getLast?_concat] at hp
        simpa using hp
      subst ha
      rw [List.dropLast_concat]
      exact lineOk_concat (by decide) h
    · rw [if_neg hp]
      exact h

/-! ### Newline-freeness of processed lines -/

theorem mem_of_mem_dropTrailing {p : Char → Bool} {x : Char} {l : Str}
    (h : x ∈ dropTrailing p l) : x ∈ l := by
  simp only [dropTrailing, List.mem_reverse] at h
  exact List.mem_reverse.mp ((List.dropWhile_sublist p).mem h)

theorem mem_of_mem_jsTrim {x : Char} {l : Str} (h : x ∈ jsTrim l) : x ∈ l :=
  (List.dropWhile_sublist jsWs).mem (mem_of_mem_dropTrailing h)

theorem mem_of_mem_stripPeriod {x : Char} {l : Str} (h : x ∈ stripPeriod l) :
    x ∈ l := by
  rw [stripPeriod] at h
  by_cases hp : (l.getLast? == some '.') = true
  · rw [if_pos hp] at h
    exact (List.dropLast_sublist l).mem h
  · rw [if_neg hp] at h
    exact h

/-! ### The C6 pipeline theorems -/

theorem marksOk_formatMarks (l : Str) : marksOk (formatMarks l) = true :=
  marksOk_dropLeadNl (marksOk_scanRepl l)

theorem splitLines_normalizeSteps (s : Str) :
    splitLines (normalizeSteps s) =
      (splitLines (formatMarks (jsTrim s))).map
        (fun line => stripPeriod (jsTrim line)) := by
  rw [normalizeSteps]
  apply splitLines_joinLines
  · intro hnil
    have hlen := congrArg List.length hnil
    simp only [List.length_map, List.length_nil] at hlen
    exact splitLines_ne_nil _ (List.length_eq_zero.mp hlen)
  · intro l hl
    obtain ⟨line, hline, rfl⟩ := List.mem_map.mp hl
    intro hmem
    exact mem_splitLines_no_nl _ line hline
      (mem_of_mem_jsTrim (mem_of_mem_stripPeriod hmem))

theorem marksOk_normalizeSteps (s : Str) :
    marksOk (normalizeSteps s) = true := by
  rw [normalizeSteps]
  apply marksOk_joinLines
  intro l hl
  obtain ⟨line, hline, rfl⟩ := List.mem_map.mp hl
  exact lineOk_stripPeriod (lineOk_jsTrim
    (lineOk_of_marksOk (marksOk_formatMarks (jsTrim s)) line hline))

/-- C6 (amended).  For every record produced by the second
`normalizeTestCases` variant: `title`, `expectedResult` and
`precondition` are trimmed; in `precondition` and `steps` every
digit-period list marker that is directly preceded by whitespace is
directly preceded by a newline (the forced line break); and every line
of `steps` is a whitespace-trimmed string with one trailing period
stripped (so a `steps` line can end in whitespace exposed by the period
strip, and `steps` as a whole need not be trimmed). -/
theorem normalize_fields_spec (l : List TestCase) (tc' : TestCase)
    (h : tc' ∈ normalizeTestCases l) :
    isTrimmed tc'.title ∧ isTrimmed tc'.expectedResult ∧
      isTrimmed tc'.precondition ∧ marksOk tc'.precondition = true ∧
      marksOk tc'.steps = true ∧
      ∀ line ∈ splitLines tc'.steps, ∃ t, isTrimmed t ∧ line = stripPeriod t := by
  simp only [normalizeTestCases, List.mem_map] at h
  obtain ⟨tc, _, rfl⟩ := h
  refine ⟨isTrimmed_jsTrim _, isTrimmed_jsTrim _, ?_, ?_, ?_, ?_⟩
  · exact isTrimmed_formatMarks (isTrimmed_jsTrim _)
  · exact marksOk_formatMarks _
  · exact marksOk_normalizeSteps _
  · intro line hline
    rw [show ({ tc with
        title := jsTrim tc.title
        steps := normalizeSteps tc.steps
        precondition := normalizePre tc.precondition
        expectedResult := jsTrim tc.expectedResult } : TestCase).steps =
      normalizeSteps tc.steps from rfl, splitLines_normalizeSteps] at hline
    obtain ⟨line0, _, rfl⟩ := List.mem_map.mp hline
    exact ⟨jsTrim line0, isTrimmed_jsTrim _, rfl⟩

/-- A concrete input on which the claim, as stated, fails. -/
def stepsCexIn : TestCase :=
  { id := [], no := 1, title := [], depth1 := [], depth2 := [], depth3 := [],
    precondition := [], steps := "a .".toList, expectedResult := [] }

/-- The record `normalizeTestCases` produces for `stepsCexIn`. -/
def stepsCexOut : TestCase :=
  { stepsCexIn with steps := "a ".toList }

/-- C6 counterexample: with input `steps = "a ."` the second
`normalizeTestCases` variant outputs `steps = "a "` — stripping the
trailing period of the trimmed line exposes a trailing space, so the
`steps` field of the output is NOT trimmed, refuting the claim that all
four text fields come out trimmed. -/
theorem normalize_steps_trim_cex :
    (normalizeTestCases [stepsCexIn]).map (fun tc => tc.steps) = ["a ".toList] ∧
      ¬ isTrimmed ("a ".toList) := by
  constructor
  · decide
  · decide

/-- Witness for the amended C6 theorem at a concrete input. -/
theorem normalize_fields_spec_witness :
    stepsCexOut ∈ normalizeTestCases [stepsCexIn] ∧
      (isTrimmed stepsCexOut.title ∧ isTrimmed stepsCexOut.expectedResult ∧
        isTrimmed stepsCexOut.precondition ∧
        marksOk stepsCexOut.precondition = true ∧
        marksOk stepsCexOut.steps = true ∧
        ∀ line ∈ splitLines stepsCexOut.steps,
          ∃ t, isTrimmed t ∧ line = stripPeriod t) := by
  have hmem : stepsCexOut ∈ normalizeTestCases [stepsCexIn] := by decide
  exact ⟨hmem, normalize_fields_spec [stepsCexIn] stepsCexOut hmem⟩

/-! ## The recovery parser (`recoverTruncatedJson`, geminiService.ts lines 54-167)

Strategy A (`parseViaBrackets`) scans for balanced `{...}` chunks while
respecting string literals, `JSON.parse`s each chunk and classifies the
result; Strategy B (`parseViaRegex`) extracts `{"no": N ...}`-shaped flat
chunks by regex.  `JSON.parse` is embedded below as an executable
recursive-descent parser for the JSON grammar (whitespace restricted to
space/tab/LF/CR, no trailing commas, JSON string escapes; numbers are
held exactly as rationals; a lone surrogate `\uXXXX` escape is embedded
as U+FFFD since Lean `Char` holds scalar values only). -/

inductive JsValue where
  | null
  | bool (b : Bool)
  | num (q : Rat)
  | str (s : Str)
  | arr (elems : List JsValue)
  | obj (fields : List (Str × JsValue))

/-- JSON (not JS) whitespace. -/
def jsonWsChar (c : Char) : Bool :=
  c == ' ' || c == '\t' || c == '\n' || c == '\r'

def skipJsonWs (l : Str) : Str :=
  l.dropWhile jsonWsChar

def hexVal (c : Char) : Option Nat :=
  let n := c.toNat
  if 48 ≤ n && n ≤ 57 then some (n - 48)
  else if 97 ≤ n && n ≤ 102 then some (n - 87)
  else if 65 ≤ n && n ≤ 70 then some (n - 55)
  else none

def escMap (e : Char) : Option Char :=
  if e == '"' then some '"'
  else if e == '\\' then some '\\'
  else if e == '/' then some '/'
  else if e == 'b' then some (Char.ofNat 8)
  else if e == 'f' then some (Char.ofNat 12)
  else if e == 'n' then some '\n'
  else if e == 'r' then some '\r'
  else if e == 't' then some '\t'
  else none

/-- Body of a JSON string literal (after the opening quote): returns the
decoded characters and the remainder after the closing quote. -/
def parseJsonStrBody : Nat → Str → Option (Str × Str)
  | 0, _ => none
  | fuel + 1, l =>
    match l with
    | [] => none
    | c :: rest =>
      if c == '"' then some ([], rest)
      else if c == '\\' then
        match rest with
        | [] => none
        | e :: r2 =>
          if e == 'u' then
            match r2 with
            | h1 :: h2 :: h3 :: h4 :: r3 =>
              match hexVal h1, hexVal h2, hexVal h3, hexVal h4 with
              | some a, some b, some c4, some d =>
                let code := ((a * 16 + b) * 16 + c4) * 16 + d
                if 0xD800 ≤ code && code ≤ 0xDBFF then
                  match r3 with
                  | e2 :: u2 :: g1 :: g2 :: g3 :: g4 :: r4 =>
                    if e2 == '\\' && u2 == 'u' then
                      match hexVal g1, hexVal g2, hexVal g3, hexVal g4 with
                      | some a2, some b2, some c2, some d2 =>
                        let lo := ((a2 * 16 + b2) * 16 + c2) * 16 + d2
                        if 0xDC00 ≤ lo && lo ≤ 0xDFFF then
                          (parseJsonStrBody fuel r4).map (fun (s, r) =>
                            (Char.ofNat (0x10000 + (code - 0xD800) * 0x400 +
                              (lo - 0xDC00)) :: s, r))
                        else
                          (parseJsonStrBody fuel r3).map (fun (s, r) =>
                            (Char.ofNat 0xFFFD :: s, r))
                      | _, _, _, _ =>
                        (parseJsonStrBody fuel r3).map (fun (s, r) =>
                          (Char.ofNat 0xFFFD :: s, r))
                    else
                      (parseJsonStrBody fuel r3).map (fun (s, r) =>
                        (Char.ofNat 0xFFFD :: s, r))
                  | _ =>
                    (parseJsonStrBody fuel r3).map (fun (s, r) =>
                      (Char.ofNat 0xFFFD :: s, r))
                else if 0xDC00 ≤ code && code ≤ 0xDFFF then
                  (parseJsonStrBody fuel r3).map (fun (s, r) =>
                    (Char.ofNat 0xFFFD :: s, r))
                else
                  (parseJsonStrBody fuel r3).map (fun (s, r) =>
                    (Char.ofNat code :: s, r))
              | _, _, _, _ => none
            | _ => none
          else
            match escMap e with
            | some ch => (parseJsonStrBody fuel r2).map (fun (s, r) => (ch :: s, r))
            | none => none
      else if c.toNat < 0x20 then none
      else (parseJsonStrBody fuel rest).map (fun (s, r) => (c :: s, r))

/-- Digit run to its numeric value. -/
def digitsToNat (l : Str) : Nat :=
  l.foldl (fun acc c => acc * 10 + (c.toNat - 48)) 0

/-- JSON number grammar, returning the exact rational value. -/
def parseJsonNumber (l : Str) : Option (Rat × Str) :=
  let (neg, l1) :=
    match l with
    | c :: rest => if c == '-' then (true, rest) else (false, l)
    | [] => (false, l)
  match l1 with
  | [] => none
  | c :: rest =>
    if !(isDig c) then none
    else
      let (ip, l2) :=
        if c == '0' then ((0 : Nat), rest)
        else (digitsToNat (l1.takeWhile isDig), l1.dropWhile isDig)
      let (fr, l3) :=
        match l2 with
        | f0 :: frest =>
          if f0 == '.' then
            (frest.takeWhile isDig, frest.dropWhile isDig)
          else (([] : Str), l2)
        | [] => (([] : Str), l2)
      let fracBad :=
        match l2 with
        | f0 :: _ => f0 == '.' && fr.isEmpty
        | [] => false
      let (hasExp, exSign, exDigits, l4) :=
        match l3 with
        | e0 :: erest =>
          if e0 == 'e' || e0 == 'E' then
            match erest with
            | s0 :: srest =>
              if s0 == '-' then (true, true, srest.takeWhile isDig, srest.dropWhile isDig)
              else if s0 == '+' then (true, false, srest.takeWhile isDig, srest.dropWhile isDig)
              else (true, false, erest.takeWhile isDig, erest.dropWhile isDig)
            | [] => (true, false, ([] : Str), erest)
          else (false, false, ([] : Str), l3)
        | [] => (false, false, ([] : Str), l3)
      if fracBad then none
      else if hasExp && exDigits.isEmpty then none
      else
        let mant : Rat := (ip : Rat) + (digitsToNat fr : Rat) / ((10 : Rat) ^ fr.length)
        let signed := if neg then -mant else mant
        let ex : Int :=
          if hasExp then
            (if exSign then -(digitsToNat exDigits : Int) else (digitsToNat exDigits : Int))
          else 0
        some (signed * (10 : Rat) ^ ex, l4)

mutual

/-- One JSON value (input must start at the value, no leading space). -/
def parseJsonValue : Nat → Str → Option (JsValue × Str)
  | 0, _ => none
  | fuel + 1, l =>
    match l with
    | [] => none
    | c :: rest =>
      if c == '{' then
        let l1 := skipJsonWs rest
        match l1 with
        | c1 :: r1 =>
          if c1 == '}' then some (.obj [], r1)
          else (parseJsonMembers fuel l1).map (fun (fs, r) => (.obj fs, r))
        | [] => none
      else if c == '[' then
        let l1 := skipJsonWs rest
        match l1 with
        | c1 :: r1 =>
          if c1 == ']' then some (.arr [], r1)
          else (parseJsonElems fuel l1).map (fun (es, r) => (.arr es, r))
        | [] => none
      else if c == '"' then
        (parseJsonStrBody (rest.length + 1) rest).map (fun (s, r) => (.str s, r))
      else if c == 't' then
        if ("true".toList).isPrefixOf l then some (.bool true, l.drop 4) else none
      else if c == 'f' then
        if ("false".toList).isPrefixOf l then some (.bool false, l.drop 5) else none
      else if c == 'n' then
        if ("null".toList).isPrefixOf l then some (.null, l.drop 4) else none
      else
        (parseJsonNumber l).map (fun (q, r) => (.num q, r))

/-- Object members (input starts at a key's opening quote after
whitespace); consumes the closing brace. -/
def parseJsonMembers : Nat → Str → Option (List (Str × JsValue) × Str)
  | 0, _ => none
  | fuel + 1, l =>
    match l with
    | [] => none
    | c :: rest =>
      if c == '"' then
        match parseJsonStrBody (rest.length + 1) rest with
        | some (key, r1) =>
          match skipJsonWs r1 with
          | c2 :: r3 =>
            if c2 == ':' then
              match parseJsonValue fuel (skipJsonWs r3) with
              | some (v, r4) =>
                match skipJsonWs r4 with
                | c5 :: r6 =>
                  if c5 == ',' then
                    (parseJsonMembers fuel (skipJsonWs r6)).map
                      (fun (fs, r) => ((key, v) :: fs, r))
                  else if c5 == '}' then some ([(key, v)], r6)
                  else none
                | [] => none
              | none => none
            else none
          | [] => none
        | none => none
      else none

/-- Array elements (input starts at the first element after whitespace);
consumes the closing bracket. -/
def parseJsonElems : Nat → Str → Option (List JsValue × Str)
  | 0, _ => none
  | fuel + 1, l =>
    match parseJsonValue fuel l with
    | some (v, r1) =>
      match skipJsonWs r1 with
      | c2 :: r3 =>
        if c2 == ',' then
          (parseJsonElems fuel (skipJsonWs r3)).map (fun (es, r) => (v :: es, r))
        else if c2 == ']' then some ([v], r3)
        else none
      | [] => none
    | none => none

end

/-- `JSON.parse`: the whole input must be one JSON value surrounded by
JSON whitespace only. -/
def jsonParse (l : Str) : Option JsValue :=
  match parseJsonValue (l.length + 1) (skipJsonWs l) with
  | some (v, rest) => if (skipJsonWs rest).isEmpty then some v else none
  | none => none

/-! ### JS object helpers -/

/-- Property lookup — JSON.parse keeps the LAST duplicate key. -/
def jsGet (fields : List (Str × JsValue)) (key : Str) : Option JsValue :=
  (fields.reverse.find? (fun kv => kv.1 == key)).map (fun kv => kv.2)

/-- JS truthiness of a (possibly absent) JSON-derived value. -/
def jsTruthy : Option JsValue → Bool
  | none => false
  | some .null => false
  | some (.bool b) => b
  | some (.num q) => !(q == 0)
  | some (.str s) => !s.isEmpty
  | some (.arr _) => true
  | some (.obj _) => true

def isArrayV : Option JsValue → Bool
  | some (.arr _) => true
  | _ => false

/-- Accumulator of `recoverTruncatedJson` (``questions``/``summary`` are
reassigned wholesale when truthy, so they are held as values). -/
structure RecoverResult where
  testCases : List JsValue
  questions : JsValue
  summary : JsValue

/-- `tcs.forEach(tc => { if (tc.no !== undefined) push(tc) })`: a `null`
element makes the property access throw, aborting the rest of the
`forEach` (the exception is swallowed by the chunk's `catch`); primitive
and array elements have no `no` property and are skipped. -/
def scanElems : List JsValue → List JsValue × Bool
  | [] => ([], true)
  | e :: rest =>
    match e with
    | .null => ([], false)
    | .obj fs =>
      let (p, cdone) := scanElems rest
      (if (jsGet fs ("no".toList)).isSome then e :: p else p, cdone)
    | _ => scanElems rest

/-- Classification of one successfully parsed chunk: what gets pushed to
`testCases` and the (optional) new `questions`/`summary` values. -/
def pushedOf (v : JsValue) : List JsValue × Option JsValue × Option JsValue :=
  match v with
  | .obj fs =>
    if (jsGet fs ("no".toList)).isSome &&
        (jsTruthy (jsGet fs ("title".toList)) || jsTruthy (jsGet fs ("steps".toList))) then
      ([v], none, none)
    else if isArrayV (jsGet fs ("testCases".toList)) ||
        isArrayV (jsGet fs ("testcases".toList)) then
      let tcsVal :=
        if jsTruthy (jsGet fs ("testCases".toList)) then jsGet fs ("testCases".toList)
        else jsGet fs ("testcases".toList)
      match tcsVal with
      | some (.arr elems) =>
        let (pushed, cdone) := scanElems elems
        if cdone then
          (pushed,
            if jsTruthy (jsGet fs ("questions".toList)) then jsGet fs ("questions".toList)
            else none,
            if jsTruthy (jsGet fs ("summary".toList)) then jsGet fs ("summary".toList)
            else none)
        else (pushed, none, none)
      | _ => ([], none, none)
    else ([], none, none)
  | _ => ([], none, none)

/-! ### Strategy A: `parseViaBrackets` -/

/-- `text.indexOf(c, start)`. -/
def indexOfFrom (l : Str) (c : Char) (start : Nat) : Option Nat :=
  ((l.drop start).findIdx? (fun x => x == c)).map (fun k => k + start)

/-- The inner for-loop of `parseViaBrackets`: track brace balance while
respecting string literals; return the offset of the balancing `}`. -/
def findClose : Str → Int → Bool → Bool → Nat → Option Nat
  | [], _, _, _, _ => none
  | c :: rest, balance, inString, isEscaped, i =>
    if inString then
      if c == '\\' then findClose rest balance inString (!isEscaped) (i + 1)
      else if c == '"' && !isEscaped then findClose rest balance false isEscaped (i + 1)
      else findClose rest balance inString false (i + 1)
    else
      if c == '"' then findClose rest balance true isEscaped (i + 1)
      else if c == '{' then findClose rest (balance + 1) inString isEscaped (i + 1)
      else if c == '}' then
        if balance - 1 == 0 then some i
        else findClose rest (balance - 1) inString isEscaped (i + 1)
      else findClose rest balance inString isEscaped (i + 1)

/-- One iteration of the `parseViaBrackets` while-loop: find the next
`{`; if a balanced close exists, parse the chunk (parse failures
swallowed) and resume after it, otherwise resume one past the `{`.
Returns `none` when no `{` remains (the `break`). -/
def bracketStep (text : Str) (startIndex : Nat) :
    Option (Nat × (List JsValue × Option JsValue × Option JsValue)) :=
  match indexOfFrom text '{' startIndex with
  | none => none
  | some ob =>
    match findClose (text.drop ob) 0 false false 0 with
    | some off =>
      let chunk := (text.drop ob).take (off + 1)
      let upd :=
        match jsonParse chunk with
        | some v => pushedOf v
        | none => ([], none, none)
      some (ob + off + 1, upd)
    | none => some (ob + 1, ([], none, none))

/-- The while-loop, fuelled by the source's own `maxIterations = 10000`;
returns the accumulated result and the number of iterations used. -/
def bracketLoop (text : Str) : Nat → Nat → RecoverResult → RecoverResult × Nat
  | 0, _, acc => (acc, 0)
  | fuel + 1, s, acc =>
    match bracketStep text s with
    | none => (acc, 1)
    | some (s', (tcs, q, sm)) =>
      let acc' : RecoverResult :=
        { testCases := acc.testCases ++ tcs
          questions := q.getD acc.questions
          summary := sm.getD acc.summary }
      let r := bracketLoop text fuel s' acc'
      (r.1, r.2 + 1)

/-- `parseViaBrackets` (result part). -/
def parseViaBrackets (text : Str) : RecoverResult :=
  (bracketLoop text 10000 0 ⟨[], .arr [], .str []⟩).1

/-- Number of loop iterations `parseViaBrackets` performs. -/
def bracketIters (text : Str) : Nat :=
  (bracketLoop text 10000 0 ⟨[], .arr [], .str []⟩).2

/-- C8. The bracket-balancing scan terminates: every non-breaking
iteration strictly advances the scan position (to one past the balanced
close, or one past the opening brace when no close exists), and the loop
performs at most the source's fixed cap of 10000 iterations. -/
theorem bracketScan_terminates :
    (∀ (text : Str) (s s' : Nat) upd,
        bracketStep text s = some (s', upd) → s < s') ∧
      (∀ text : Str, bracketIters text ≤ 10000) := by
  constructor
  · intro text s s' upd h
    rw [bracketStep] at h
    rcases hio : indexOfFrom text '{' s with _ | ob
    · simp only [hio] at h
      cases h
    · simp only [hio] at h
      have hob : s ≤ ob := by
        rw [indexOfFrom] at hio
        rcases hfi : (text.drop s).findIdx? (fun x => x == '{') with _ | k
        · simp [hfi] at hio
        · simp only [hfi, Option.map_some', Option.some.injEq] at hio
          omega
      rcases hfc : findClose (text.drop ob) 0 false false 0 with _ | off
      · simp only [hfc] at h
        injection h with h
        have h1 : ob + 1 = s' := by simpa using congrArg Prod.fst h
        omega
      · simp only [hfc] at h
        injection h with h
        have h1 : ob + off + 1 = s' := by simpa using congrArg Prod.fst h
        omega
  · intro text
    have key : ∀ fuel s acc, (bracketLoop text fuel s acc).2 ≤ fuel := by
      intro fuel
      induction fuel with
      | zero => intro s acc; simp [bracketLoop]
      | succ fuel ih =>
        intro s acc
        rw [bracketLoop]
        rcases hst : bracketStep text s with _ | ⟨s', tcs, q, sm⟩
        · simp
        · simp only [hst]
          have h2 := ih s' { testCases := acc.testCases ++ tcs
                             questions := q.getD acc.questions
                             summary := sm.getD acc.summary }
          omega
    exact key 10000 0 _

/-- Witness for C8 on a concrete scan state. -/
theorem bracketScan_terminates_witness :
    0 < 2 ∧ bracketIters ("{}".toList) ≤ 10000 :=
  ⟨bracketScan_terminates.1 ("{}".toList) 0 2 ([], none, none) (by rfl),
    bracketScan_terminates.2 ("{}".toList)⟩

/-! ### Strategy B: `parseViaRegex`

The chunk regex is `/{\s*"no"\s*:\s*(\d+)[^}]*?}/gis`: an opening brace,
optional whitespace, the literal `"no"` (case-insensitively), a colon, a
nonempty digit capture, then lazily anything up to the first closing
brace.  Per-field extraction uses
`"key"\s*:\s*"((?:[^"\\]|\\.)*?)"` (case-insensitive, lazy), and the
captured value is unescaped by replacing `\"` then `\\`. -/

/-- Case-insensitive character comparison as JS `/i` canonicalises ASCII
pattern characters (non-ASCII text never matches an ASCII pattern). -/
def ciEq (a b : Char) : Bool :=
  a.toLower == b.toLower

/-- Attempt the chunk regex at the head of `l`; on success return the
matched chunk text, the captured number, and the remainder after the
match. -/
def chunkAttempt (l : Str) : Option (Str × Nat × Str) :=
  match l with
  | [] => none
  | c0 :: r0 =>
    if c0 == '{' then
      let w1 := r0.takeWhile jsWs
      let r1 := r0.dropWhile jsWs
      match r1 with
      | q1 :: k1 :: k2 :: q2 :: r2 =>
        if q1 == '"' && ciEq k1 'n' && ciEq k2 'o' && q2 == '"' then
          let w2 := r2.takeWhile jsWs
          let r3 := r2.dropWhile jsWs
          match r3 with
          | col :: r4 =>
            if col == ':' then
              let w3 := r4.takeWhile jsWs
              let r5 := r4.dropWhile jsWs
              let d := r5.takeWhile isDig
              let r6 := r5.dropWhile isDig
              if d.isEmpty then none
              else
                let mid := r6.takeWhile (fun x => !(x == '}'))
                let r7 := r6.dropWhile (fun x => !(x == '}'))
                match r7 with
                | _ :: r8 =>
                  let len := 1 + w1.length + 4 + w2.length + 1 + w3.length +
                    d.length + mid.length + 1
                  some (l.take len, digitsToNat d, r8)
                | [] => none
            else none
          | [] => none
        else none
      | _ => none
    else none

/-- Lazy capture of `((?:[^"\\]|\\.)*?)"`: raw characters (escapes kept
verbatim) up to the first closing quote. -/
def lazyStr : Str → Option (Str × Str)
  | [] => none
  | c :: rest =>
    if c == '"' then some ([], rest)
    else if c == '\\' then
      match rest with
      | [] => none
      | e :: r2 => (lazyStr r2).map (fun pr => (c :: e :: pr.1, pr.2))
    else (lazyStr rest).map (fun pr => (c :: pr.1, pr.2))

/-- Case-insensitive literal match; returns the remainder. -/
def ciPrefixDrop : Str → Str → Option Str
  | [], l => some l
  | _ :: _, [] => none
  | k :: ks, c :: cs => if ciEq k c then ciPrefixDrop ks cs else none

/-- Attempt the field regex at the head of `l`; returns the raw capture. -/
def fieldAttempt (key : Str) (l : Str) : Option Str :=
  match l with
  | [] => none
  | c0 :: r0 =>
    if c0 == '"' then
      match ciPrefixDrop key r0 with
      | some r1 =>
        match r1 with
        | q2 :: r2 =>
          if q2 == '"' then
            match r2.dropWhile jsWs with
            | col :: r4 =>
              if col == ':' then
                match r4.dropWhile jsWs with
                | q3 :: r6 =>
                  if q3 == '"' then (lazyStr r6).map (fun pr => pr.1)
                  else none
                | [] => none
              else none
            | [] => none
          else none
        | [] => none
      | none => none
    else none

def getFieldAux : Nat → Str → Str → Option Str
  | 0, _, _ => none
  | fuel + 1, key, l =>
    match fieldAttempt key l with
    | some raw => some raw
    | none =>
      match l with
      | [] => none
      | _ :: rest => getFieldAux fuel key rest

/-- Replace every (leftmost, non-overlapping) two-character sequence
`a b` by the single character `toc`. -/
def replaceSub2 (a b toc : Char) : Str → Str
  | [] => []
  | [c] => [c]
  | c1 :: c2 :: rest =>
    if c1 == a && c2 == b then toc :: replaceSub2 a b toc rest
    else c1 :: replaceSub2 a b toc (c2 :: rest)

/-- `.replace(/\\"/g, '"').replace(/\\\\/g, '\\')`. -/
def unescapeField (raw : Str) : Str :=
  replaceSub2 '\\' '\\' '\\' (replaceSub2 '\\' '"' '"' raw)

/-- `getField`: first match of the field regex anywhere in the chunk,
unescaped; empty when absent. -/
def getField (key chunk : Str) : Str :=
  match getFieldAux (chunk.length + 1) key chunk with
  | some raw => unescapeField raw
  | none => []

/-- The record Strategy B pushes for a matched chunk (only when `title`
or `steps` came out nonempty). -/
def recordOf (chunk : Str) (n : Nat) : List JsValue :=
  let title := getField ("title".toList) chunk
  let steps := getField ("steps".toList) chunk
  if !title.isEmpty || !steps.isEmpty then
    [JsValue.obj
      [(("no".toList : Str), JsValue.num (n : Rat)),
       (("title".toList : Str), JsValue.str title),
       (("depth1".toList : Str), JsValue.str (getField ("depth1".toList) chunk)),
       (("depth2".toList : Str), JsValue.str (getField ("depth2".toList) chunk)),
       (("depth3".toList : Str), JsValue.str (getField ("depth3".toList) chunk)),
       (("precondition".toList : Str), JsValue.str (getField ("precondition".toList) chunk)),
       (("steps".toList : Str), JsValue.str steps),
       (("expectedResult".toList : Str), JsValue.str (getField ("expectedResult".toList) chunk))]]
  else []

/-- The global regex scan: leftmost match, then continue from the
position after it. -/
def regexLoop : Nat → Str → List JsValue
  | 0, _ => []
  | fuel + 1, l =>
    match l with
    | [] => []
    | _ :: rest =>
      match chunkAttempt l with
      | some (chunk, n, rem) => recordOf chunk n ++ regexLoop fuel rem
      | none => regexLoop fuel rest

/-- `parseViaRegex` (records pushed into the shared result). -/
def parseViaRegex (text : Str) : List JsValue :=
  regexLoop (text.length + 1) text

/-- Remove all (leftmost, non-overlapping) occurrences of `pat`. -/
def removeAllSub (pat : Str) : Nat → Str → Str
  | 0, l => l
  | fuel + 1, l =>
    match l with
    | [] => []
    | c :: rest =>
      if pat.isPrefixOf l then removeAllSub pat fuel (l.drop pat.length)
      else c :: removeAllSub pat fuel rest

/-- `text.replace(/```json/g, '').replace(/```/g, '')`. -/
def cleanFences (text : Str) : Str :=
  removeAllSub ("```".toList) (text.length + 1)
    (removeAllSub ("```json".toList) (text.length + 1) text)

/-- `recoverTruncatedJson`: strip fences, run Strategy A, and run
Strategy B only when A produced zero records. -/
def recoverTruncatedJson (text : Str) : RecoverResult :=
  let clean := cleanFences text
  let a := parseViaBrackets clean
  if a.testCases.isEmpty then { a with testCases := parseViaRegex clean } else a

/-- Does a recovered record carry the number `n` in its `no` field? -/
def jsHasNo (tc : JsValue) (n : Nat) : Bool :=
  match tc with
  | .obj fs =>
    match jsGet fs ("no".toList) with
    | some (.num q) => q == (n : Rat)
    | _ => false
  | _ => false

/-! ### C5 support lemmas -/

theorem chunkAttempt_nil : chunkAttempt [] = none := rfl

theorem mem_regexLoop (p : Nat) :
    ∀ (fuel : Nat) (l chunk rem : Str) (n : Nat),
      l.length + 1 ≤ fuel →
      (∀ q, q < p → chunkAttempt (l.drop q) = none) →
      chunkAttempt (l.drop p) = some (chunk, n, rem) →
      ∀ tc ∈ recordOf chunk n, tc ∈ regexLoop fuel l := by
  induction p with
  | zero =>
    intro fuel l chunk rem n hfuel _ hmatch tc htc
    rw [List.drop_zero] at hmatch
    cases l with
    | nil => rw [chunkAttempt_nil] at hmatch; cases hmatch
    | cons c rest =>
      cases fuel with
      | zero => simp at hfuel
      | succ fuel =>
        rw [regexLoop]
        simp only [hmatch]
        exact List.mem_append_left _ htc
  | succ p ih =>
    intro fuel l chunk rem n hfuel hleft hmatch tc htc
    cases l with
    | nil =>
      rw [List.drop_nil, chunkAttempt_nil] at hmatch
      cases hmatch
    | cons c rest =>
      cases fuel with
      | zero => simp at hfuel
      | succ fuel =>
        have h0 : chunkAttempt (c :: rest) = none := by
          have := hleft 0 (Nat.succ_pos p)
          simpa using this
        rw [regexLoop]
        simp only [h0]
        apply ih fuel rest chunk rem n
        · simp only [List.length_cons] at hfuel
          omega
        · intro q hq
          have := hleft (q + 1) (by omega)
          simpa [List.drop_succ_cons] using this
        · simpa [List.drop_succ_cons] using hmatch
        · exact htc

/-- C5 (amended).  Strategy B runs exactly when Strategy A yields zero
records: when A is nonempty the recovery result is A's records
untouched; and when A is empty, if the LEFTMOST match of the
`{"no": <digits>…}` chunk pattern in the cleaned input captures number
`n` and extracts a non-empty `title` or `steps`, then the recovery
result contains a Strategy-B record whose `no` equals `n`.  (The
leftmost-match restriction is forced: an earlier overlapping chunk match
swallows the text up to its closing brace, so a chunk located inside it
is never scanned on its own — see the counterexample.) -/
theorem recover_strategyB (text : Str) :
    ((parseViaBrackets (cleanFences text)).testCases.isEmpty = false →
      (recoverTruncatedJson text).testCases =
        (parseViaBrackets (cleanFences text)).testCases) ∧
      ((parseViaBrackets (cleanFences text)).testCases.isEmpty = true →
        ∀ (p : Nat) (chunk rem : Str) (n : Nat),
          chunkAttempt ((cleanFences text).drop p) = some (chunk, n, rem) →
          (∀ q, q < p → chunkAttempt ((cleanFences text).drop q) = none) →
          (!(getField ("title".toList) chunk).isEmpty ||
            !(getField ("steps".toList) chunk).isEmpty) = true →
          (recoverTruncatedJson text).testCases.any (fun tc => jsHasNo tc n) = true) := by
  constructor
  · intro hA
    rw [recoverTruncatedJson]
    simp only [hA, Bool.false_eq_true, if_false]
  · intro hA p chunk rem n hmatch hleft hfield
    rw [recoverTruncatedJson]
    simp only [hA, if_true]
    have hrec : recordOf chunk n ≠ [] := by
      rw [recordOf]
      simp only [hfield, if_true]
      simp
    rcases hr : recordOf chunk n with _ | ⟨r0, rrest⟩
    · exact absurd hr hrec
    · have hmem : r0 ∈ regexLoop ((cleanFences text).length + 1) (cleanFences text) :=
        mem_regexLoop p _ _ chunk rem n (Nat.le_refl _) hleft hmatch r0
          (by rw [hr]; exact List.mem_cons_self _ _)
      have hno : jsHasNo r0 n = true := by
        rw [recordOf] at hr
        simp only [hfield, if_true] at hr
        have : r0 = JsValue.obj
            [(("no".toList : Str), JsValue.num (n : Rat)),
             (("title".toList : Str), JsValue.str (getField ("title".toList) chunk)),
             (("depth1".toList : Str), JsValue.str (getField ("depth1".toList) chunk)),
             (("depth2".toList : Str), JsValue.str (getField ("depth2".toList) chunk)),
             (("depth3".toList : Str), JsValue.str (getField ("depth3".toList) chunk)),
             (("precondition".toList : Str),
               JsValue.str (getField ("precondition".toList) chunk)),
             (("steps".toList : Str), JsValue.str (getField ("steps".toList) chunk)),
             (("expectedResult".toList : Str),
               JsValue.str (getField ("expectedResult".toList) chunk))] := by
          injection hr with h1 _
          exact h1.symm
        rw [this, jsHasNo]
        simp [jsGet, jsTruthy]
      rw [List.any_eq_true]
      exact ⟨r0, hmem, hno⟩

/-- A concrete input that refutes C5 as stated: Strategy A recovers
nothing (the outer braces never balance and the inner chunk has a
trailing comma), the input does contain the flat chunk
`{"no": 2, "title": "t", }` with a non-empty title, yet Strategy B's
leftmost match is the enclosing junk chunk `{"no": 1 …}`, so the only
recovered record has `no = 1` and none has `no = 2`. -/
def cexText : Str :=
  ("\x7b\"no\": 1 \x7b\"no\": 2, \"title\": \"t\", \x7d").toList

def cexChunk : Str :=
  ("\x7b\"no\": 2, \"title\": \"t\", \x7d").toList

/-- C5 counterexample (the claim as frozen is false on `cexText`). -/
theorem recover_strategyB_cex :
    (parseViaBrackets (cleanFences cexText)).testCases.isEmpty = true ∧
      chunkAttempt ((cleanFences cexText).drop 9) = some (cexChunk, 2, []) ∧
      (!(getField ("title".toList) cexChunk).isEmpty ||
        !(getField ("steps".toList) cexChunk).isEmpty) = true ∧
      (recoverTruncatedJson cexText).testCases.all
        (fun tc => !(jsHasNo tc 2)) = true := by
  refine ⟨by rfl, by rfl, by rfl, by rfl⟩

/-- Witness for the amended C5 theorem: a single flat chunk with a
trailing comma (so `JSON.parse` and hence Strategy A fail) whose
leftmost chunk match is the chunk itself, with number 3 and a non-empty
title. -/
def wText : Str :=
  ("\x7b\"no\": 3, \"title\": \"t\", \x7d").toList

theorem recover_strategyB_witness :
    (recoverTruncatedJson wText).testCases.any (fun tc => jsHasNo tc 3) = true :=
  (recover_strategyB wText).2 (by rfl) 0 wText [] 3 (by rfl)
    (fun q hq => absurd hq (Nat.not_lt_zero q)) (by rfl)

/-! ## The resilient fetch layer (`figmaService.ts` lines 39-259)

The browser `fetch`, the blob decoder and the timers are abstracted as
oracles indexed by call count; the embedded functions record the waits
they would have performed and the number of underlying calls they made.
Cancellation is out of scope of the claims settled here: the
`AbortSignal` is modelled as never aborted, so `delay` always resolves
(a thrown `AbortError` can still arrive as an oracle outcome). -/

structure JsResponse where
  status : Int
  retryAfter : Option Str
deriving DecidableEq

structure JsError where
  name : Str
  message : Str
deriving DecidableEq

inductive FetchOutcome where
  | resp (r : JsResponse)
  | thrown (e : JsError)
deriving DecidableEq

def abortName : Str := ("AbortError").toList

/-- `response.ok`: HTTP status in the 200-299 range. -/
def respOk (r : JsResponse) : Bool :=
  200 ≤ r.status && r.status ≤ 299

/-! ### `fetchViaProxy` (lines 77-151)

The relay lists are static; only their length and order matter to the
embedded loop, which consults `env i` for the outcome of the fetch
through the `i`-th relay (cache-busting query parameters do not change
the outcome model).  The delays between relays are irrelevant to the
settled claim and are not recorded. -/

def PROXY_GENERATORS_API : List Str :=
  [("Public (corsproxy.io)").toList, ("Private (Workers)").toList]

def PROXY_GENERATORS_IMAGE : List Str :=
  [("wsrv.nl").toList, ("weserv.nl").toList, ("corsproxy.io").toList]

def noRelayError : JsError :=
  { name := ("Error").toList, message := ("모든 프록시 연결에 실패했습니다.").toList }

/-- The explicit relay loop: `i` is the index of the current relay, the
list argument the remaining relays, the `Option JsError` the recorded
`lastError`.  Returns the outcome and the indices tried, in order. -/
def proxyLoop (env : Nat → FetchOutcome) :
    Nat → List Str → Option JsError → (Except JsError JsResponse) × List Nat
  | _, [], lastError => (.error (lastError.getD noRelayError), [])
  | i, _ :: restRelays, lastError =>
    match env i with
    | .resp r =>
      if r.status == 404 then (.ok r, [i])
      else if r.status == 429 then
        if restRelays.isEmpty then (.ok r, [i])
        else
          let next := proxyLoop env (i + 1) restRelays lastError
          (next.1, i :: next.2)
      else if respOk r then (.ok r, [i])
      else if r.status ≥ 500 then
        let next := proxyLoop env (i + 1) restRelays lastError
        (next.1, i :: next.2)
      else (.ok r, [i])
    | .thrown e =>
      if e.name == abortName then (.error e, [i])
      else
        let next := proxyLoop env (i + 1) restRelays (some e)
        (next.1, i :: next.2)

/-- `fetchViaProxy` over a relay list (the API or image list). -/
def fetchViaProxy (relays : List Str) (env : Nat → FetchOutcome) :
    (Except JsError JsResponse) × List Nat :=
  proxyLoop env 0 relays none

theorem proxyLoop_all500 (env : Nat → FetchOutcome) (relays : List Str) :
    ∀ (i : Nat) (le : Option JsError),
      (∀ j, j < relays.length → ∃ r, env (i + j) = .resp r ∧ r.status ≥ 500) →
      proxyLoop env i relays le =
        (.error (le.getD noRelayError), List.range' i relays.length) := by
  induction relays with
  | nil =>
    intro i le _
    simp [proxyLoop, List.range']
  | cons rel rest ih =>
    intro i le h5
    obtain ⟨r, henv, hst⟩ := h5 0 (Nat.succ_pos _)
    rw [Nat.add_zero] at henv
    have h404 : (r.status == 404) = false := by
      simp only [beq_eq_false_iff_ne, ne_eq]
      omega
    have h429 : (r.status == 429) = false := by
      simp only [beq_eq_false_iff_ne, ne_eq]
      omega
    have hok : respOk r = false := by
      simp only [respOk, Bool.and_eq_false_iff]
      right
      simp only [decide_eq_false_iff_not]
      omega
    rw [proxyLoop]
    simp only [henv, h404, h429, hok, Bool.false_eq_true, if_false]
    rw [if_pos hst]
    rw [ih (i + 1) le (fun j hj => by
      have := h5 (j + 1) (by simpa using Nat.succ_lt_succ hj)
      simpa [Nat.add_assoc, Nat.add_comm 1 j] using this)]
    simp [List.range'_succ]

/-- C4.  If every relay of the class answers with an HTTP status ≥ 500,
`fetchViaProxy` tries each relay exactly once, in list order (the trace
is `[0, 1, …, n-1]`), and then raises: since a 5xx answer is a response
and not a network exception, no `lastError` was recorded, so the raised
error is the "no relay succeeded" error. -/
theorem proxy_exhaustion (relays : List Str) (env : Nat → FetchOutcome)
    (h5 : ∀ j, j < relays.length → ∃ r, env j = .resp r ∧ r.status ≥ 500) :
    fetchViaProxy relays env =
      (.error noRelayError, List.range relays.length) := by
  rw [fetchViaProxy, proxyLoop_all500 env relays 0 none (fun j hj => by
    simpa using h5 j hj)]
  rw [List.range_eq_range']
  rfl

/-- Witness for C4 on the static API relay list with both relays
answering 500. -/
theorem proxy_exhaustion_witness :
    fetchViaProxy PROXY_GENERATORS_API
        (fun _ => .resp { status := 500, retryAfter := none }) =
      (.error noRelayError, List.range PROXY_GENERATORS_API.length) :=
  proxy_exhaustion PROXY_GENERATORS_API _
    (fun j _ => ⟨{ status := 500, retryAfter := none }, rfl, by decide⟩)

/-! ### `fetchWithRetry` (lines 156-209)

`env k` is the outcome of the `k`-th underlying `fetchViaProxy` call.
The embedded function records the milliseconds it would have waited and
how many underlying calls were made.  The signal is never aborted, so
every `delay` resolves; JS `retries` is a number, kept as `Int` so the
`retries <= 0` / `retries > 0` tests read as in the source.  Recursion
is on fuel `retries.toNat + 1`, which the source's `retries - 1`
decrements never exhaust. -/

/-- JS `parseInt(s)`: skip whitespace, optional sign, leading decimal
digits; `NaN` is `none`.  (Hex via `0x` does not occur for `Retry-After`
values and is not modelled.) -/
def jsParseInt (s : Str) : Option Int :=
  let l := s.dropWhile jsWs
  let signed : Bool × Str :=
    match l with
    | c :: rest => if c == '-' then (true, rest) else if c == '+' then (false, rest) else (false, l)
    | [] => (false, l)
  let d := signed.2.takeWhile isDig
  if d.isEmpty then none
  else some (if signed.1 then -(digitsToNat d : Int) else (digitsToNat d : Int))

/-- `Number.prototype.toFixed(1)` for the nonnegative values the source
formats (`parsedVal / 3600` with `parsedVal > 60`): round half away from
zero to one decimal. -/
def toFixed1 (q : Rat) : Str :=
  let n := (q * 10 + 1 / 2).floor.toNat
  (Nat.repr (n / 10)).toList ++ ('.' :: (Nat.repr (n % 10)).toList)

def intToStr (i : Int) : Str :=
  if i < 0 then '-' :: (Nat.repr (-i).toNat).toList else (Nat.repr i.toNat).toList

/-- The substring the `catch` block looks for to rethrow ban errors. -/
def banMarker : Str := ("Figma Access Token 차단됨").toList

/-- The message of the error thrown when `Retry-After` exceeds 60 s.
(The source also computes `waitMinutes = Math.ceil(parsedVal / 60)`, but
never interpolates it, so it is not modelled.) -/
def banMessage (v : Int) : Str :=
  ("⛔ Figma Access Token 차단됨 (Rate Limit)\n\nFigma API가 현재 토큰의 요청을 거부하고 있습니다.\n대기 시간: ").toList
    ++ intToStr v
    ++ ("초 (약 ").toList
    ++ toFixed1 ((v : Rat) / 3600)
    ++ ("시간)\n\n[해결책]\n1. 다른 계정의 Access Token을 발급받아 시도하세요.\n2. 지정된 시간이 지난 후 다시 시도하세요.").toList

def banError (v : Int) : JsError :=
  { name := ("Error").toList, message := banMessage v }

def limitError : JsError :=
  { name := ("Error").toList, message := ("API 요청 한도 초과 (모든 재시도 실패)").toList }

structure RetryRun where
  result : Except JsError JsResponse
  waits : List Rat
  calls : Nat

def fetchWithRetryFuel (env : Nat → FetchOutcome) :
    Nat → Nat → Int → Rat → RetryRun
  | 0, _, _, _ =>
    { result := .error { name := ("FuelExhausted").toList, message := [] },
      waits := [], calls := 0 }
  | fuel + 1, k, retries, defaultBackoff =>
    -- the catch block of lines 196-208
    let handle : JsError → RetryRun := fun e =>
      if e.name == abortName then { result := .error e, waits := [], calls := 1 }
      else if containsSub banMarker e.message then
        { result := .error e, waits := [], calls := 1 }
      else if retries > 0 then
        let r := fetchWithRetryFuel env fuel (k + 1) (retries - 1) defaultBackoff
        { result := r.result, waits := 2000 :: r.waits, calls := r.calls + 1 }
      else { result := .error e, waits := [], calls := 1 }
    match env k with
    | .thrown e => handle e
    | .resp response =>
      if response.status == 429 then
        if retries ≤ 0 then handle limitError
        else
          let contWait : Rat → RetryRun := fun waitTimeMs =>
            let r := fetchWithRetryFuel env fuel (k + 1) (retries - 1)
                       (waitTimeMs * (3 / 2))
            { result := r.result, waits := waitTimeMs :: r.waits,
              calls := r.calls + 1 }
          match response.retryAfter with
          | some h =>
            match jsParseInt h with
            | some v =>
              let waitTimeMs : Rat := (v : Rat) * 1000
              if waitTimeMs > 60000 then handle (banError v)
              else contWait waitTimeMs
            | none => contWait defaultBackoff
          | none => contWait (max defaultBackoff 3000)
      else { result := .ok response, waits := [], calls := 1 }

def fetchWithRetry (env : Nat → FetchOutcome) (k : Nat) (retries : Int)
    (defaultBackoff : Rat) : RetryRun :=
  fetchWithRetryFuel env (retries.toNat + 1) k retries defaultBackoff

theorem containsSub_banMessage (v : Int) :
    containsSub banMarker (banMessage v) = true := by
  rw [banMessage]
  apply containsSub_append_left
  apply containsSub_append_left
  apply containsSub_append_left
  apply containsSub_append_left
  decide

/-- C3 (amended).  If at least one retry remains and the 429 response
carries a `Retry-After` header parsing to `v` with `v * 1000 > 60000`
milliseconds, `fetchWithRetry` raises the token-ban error at once: no
wait is performed, no further call is made, and the `catch` block
rethrows it (its message contains the ban marker) instead of consuming a
retry.  When `retries ≤ 0`, however, the source throws the retry-limit
error before ever reading `Retry-After` (see the counterexample). -/
theorem retryAfter_ban (env : Nat → FetchOutcome) (k : Nat) (retries : Int)
    (defaultBackoff : Rat) (h : Str) (v : Int)
    (hret : retries > 0)
    (henv : env k = .resp { status := 429, retryAfter := some h })
    (hparse : jsParseInt h = some v)
    (hbig : (v : Rat) * 1000 > 60000) :
    fetchWithRetry env k retries defaultBackoff =
      { result := .error (banError v), waits := [], calls := 1 } := by
  rw [fetchWithRetry, fetchWithRetryFuel]
  simp only [henv, hparse]
  rw [if_pos (by decide)]
  rw [if_neg (by omega)]
  rw [if_pos hbig]
  simp only [banError]
  rw [if_neg (by decide)]
  rw [if_pos (containsSub_banMessage v)]

/-- Witness for C3's amended claim: three retries remaining,
`Retry-After: 3601`. -/
theorem retryAfter_ban_witness :
    fetchWithRetry
        (fun _ => .resp { status := 429, retryAfter := some (("3601").toList) })
        0 3 3000 =
      { result := .error (banError 3601), waits := [], calls := 1 } :=
  retryAfter_ban _ 0 3 3000 (("3601").toList) 3601 (by omega) rfl (by rfl)
    (by norm_num)

/-- C3, counterexample to "regardless of how many retries remain": with
zero retries remaining, the same oversize `Retry-After: 3601` response
produces the generic retry-limit error, not the token-ban error — the
`retries <= 0` check precedes the header inspection, and the limit
error's message does not contain the ban marker. -/
theorem retryAfter_ban_cex :
    fetchWithRetry
        (fun _ => .resp { status := 429, retryAfter := some (("3601").toList) })
        0 0 3000 =
      { result := .error limitError, waits := [], calls := 1 } ∧
      containsSub banMarker limitError.message = false :=
  ⟨by rfl, by rfl⟩

/-! ### `urlToBase64` (lines 237-259)

`env k` gives the outcome of the `k`-th attempt: either the fetch (or
the blob read) throws, or a response arrives with a status and — when
the status is OK — a blob whose base64 decoding succeeds or throws.
The empty string stands for the JS `""` returned on final failure. -/

inductive UrlOutcome where
  | thrown (e : JsError)
  | resp (status : Int) (blob : Except JsError Str)

structure UrlRun where
  result : Except JsError Str
  waits : List Rat
  calls : Nat

def imageFetchError (status : Int) : JsError :=
  { name := ("Error").toList,
    message := ("Image fetch failed: ").toList ++ intToStr status }

/-- The catch block of lines 250-258, with `rec` the recursive call. -/
def urlHandle (rec : Nat → Int → UrlRun) (k : Nat) (retries : Int)
    (e : JsError) : UrlRun :=
  if e.name == abortName then { result := .error e, waits := [], calls := 1 }
  else if retries > 0 then
    let r := rec (k + 1) (retries - 1)
    { result := r.result, waits := 1000 :: r.waits, calls := r.calls + 1 }
  else { result := .ok [], waits := [], calls := 1 }

/-- One attempt of `urlToBase64`, with `rec` the recursive call. -/
def urlStep (rec : Nat → Int → UrlRun) (k : Nat) (retries : Int)
    (o : UrlOutcome) : UrlRun :=
  match o with
  | .thrown e => urlHandle rec k retries e
  | .resp status blob =>
    if 200 ≤ status && status ≤ 299 then
      match blob with
      | .ok s => { result := .ok s, waits := [], calls := 1 }
      | .error e => urlHandle rec k retries e
    else urlHandle rec k retries (imageFetchError status)

def urlToBase64Fuel (env : Nat → UrlOutcome) : Nat → Nat → Int → UrlRun
  | 0, _, _ =>
    { result := .error { name := ("FuelExhausted").toList, message := [] },
      waits := [], calls := 0 }
  | fuel + 1, k, retries => urlStep (urlToBase64Fuel env fuel) k retries (env k)

def urlToBase64 (env : Nat → UrlOutcome) (k : Nat) (retries : Int) : UrlRun :=
  urlToBase64Fuel env (retries.toNat + 1) k retries

/-- An attempt that neither succeeds nor aborts: a non-`AbortError`
throw, a non-OK status, or an OK status whose blob decoding throws a
non-`AbortError`. -/
def urlFails : UrlOutcome → Bool
  | .thrown e => !(e.name == abortName)
  | .resp status blob =>
    if 200 ≤ status && status ≤ 299 then
      match blob with
      | .ok _ => false
      | .error e => !(e.name == abortName)
    else true

theorem urlHandle_abort (rec : Nat → Int → UrlRun) (k : Nat) (retries : Int)
    (e : JsError)
    (hrec : retries > 0 → ∀ e',
      (rec (k + 1) (retries - 1)).result = .error e' → e'.name = abortName) :
    ∀ e', (urlHandle rec k retries e).result = .error e' →
      e'.name = abortName := by
  intro e' he'
  rw [urlHandle] at he'
  by_cases hab : (e.name == abortName) = true
  · rw [if_pos hab] at he'
    have he : e = e' := by simpa using he'
    subst he
    exact eq_of_beq hab
  · rw [if_neg hab] at he'
    by_cases hr : retries > 0
    · rw [if_pos hr] at he'
      exact hrec hr e' (by simpa using he')
    · rw [if_neg hr] at he'
      exact absurd he' (by simp)

theorem urlHandle_fail (rec : Nat → Int → UrlRun) (k : Nat) (retries : Int)
    (e : JsError)
    (hrec : retries > 0 → (rec (k + 1) (retries - 1)).result = .ok [])
    (hab : (e.name == abortName) = false) :
    (urlHandle rec k retries e).result = .ok [] := by
  rw [urlHandle, if_neg (by simp [hab])]
  by_cases hr : retries > 0
  · rw [if_pos hr]
    simpa using hrec hr
  · rw [if_neg hr]

theorem urlStep_abort (rec : Nat → Int → UrlRun) (k : Nat) (retries : Int)
    (o : UrlOutcome)
    (hrec : retries > 0 → ∀ e',
      (rec (k + 1) (retries - 1)).result = .error e' → e'.name = abortName) :
    ∀ e', (urlStep rec k retries o).result = .error e' →
      e'.name = abortName := by
  intro e' he'
  cases o with
  | thrown e0 =>
    simp only [urlStep] at he'
    exact urlHandle_abort rec k retries e0 hrec e' he'
  | resp status blob =>
    simp only [urlStep] at he'
    by_cases hok : (200 ≤ status && status ≤ 299) = true
    · rw [if_pos hok] at he'
      cases blob with
      | ok s => exact absurd he' (by simp)
      | error e0 => exact urlHandle_abort rec k retries e0 hrec e' he'
    · rw [if_neg hok] at he'
      exact urlHandle_abort rec k retries (imageFetchError status) hrec e' he'

theorem urlStep_fail (rec : Nat → Int → UrlRun) (k : Nat) (retries : Int)
    (o : UrlOutcome)
    (hrec : retries > 0 → (rec (k + 1) (retries - 1)).result = .ok [])
    (ho : urlFails o = true) :
    (urlStep rec k retries o).result = .ok [] := by
  cases o with
  | thrown e0 =>
    have hab : (e0.name == abortName) = false := by
      simpa [urlFails] using ho
    simp only [urlStep]
    exact urlHandle_fail rec k retries e0 hrec hab
  | resp status blob =>
    simp only [urlStep]
    by_cases hok : (200 ≤ status && status ≤ 299) = true
    · rw [if_pos hok]
      cases blob with
      | ok s => simp [urlFails, hok] at ho
      | error e0 =>
        have hab : (e0.name == abortName) = false := by
          simpa [urlFails, hok] using ho
        exact urlHandle_fail rec k retries e0 hrec hab
    · rw [if_neg hok]
      exact urlHandle_fail rec k retries (imageFetchError status) hrec rfl

theorem urlToBase64Fuel_spec (env : Nat → UrlOutcome) :
    ∀ (fuel k : Nat) (retries : Int), retries.toNat + 1 = fuel →
      (∀ e, (urlToBase64Fuel env fuel k retries).result = .error e →
        e.name = abortName) ∧
      ((∀ j, urlFails (env j) = true) →
        (urlToBase64Fuel env fuel k retries).result = .ok []) := by
  intro fuel
  induction fuel with
  | zero => intro k retries hinv; omega
  | succ fuel ih =>
    intro k retries hinv
    constructor
    · intro e he
      rw [urlToBase64Fuel] at he
      exact urlStep_abort _ k retries (env k)
        (fun hr e' he' => (ih (k + 1) (retries - 1) (by omega)).1 e' he') e he
    · intro hall
      rw [urlToBase64Fuel]
      exact urlStep_fail _ k retries (env k)
        (fun hr => (ih (k + 1) (retries - 1) (by omega)).2 hall) (hall k)

/-- C10.  `urlToBase64` only propagates `AbortError`: any error its
result carries is named `AbortError`, and if every attempt fails
without aborting (throw, bad status, or blob-decode throw), the final
result is the empty string, not an error. -/
theorem urlToBase64_spec (env : Nat → UrlOutcome) (k : Nat) (retries : Int) :
    (∀ e, (urlToBase64 env k retries).result = .error e →
      e.name = abortName) ∧
    ((∀ j, urlFails (env j) = true) →
      (urlToBase64 env k retries).result = .ok []) :=
  urlToBase64Fuel_spec env (retries.toNat + 1) k retries rfl

/-- Witness for C10: every attempt throws a network `TypeError`; after
the retries are spent the function resolves to `""`. -/
theorem urlToBase64_spec_witness :
    (urlToBase64
        (fun _ => .thrown { name := ("TypeError").toList,
                            message := ("Failed to fetch").toList })
        0 2).result = .ok [] :=
  (urlToBase64_spec
      (fun _ => .thrown { name := ("TypeError").toList,
                          message := ("Failed to fetch").toList })
      0 2).2 (fun _ => by decide)

/-! ### `processFigmaPage` assembly loop (lines 419-472)

For each target frame the loop consults `imageUrlMap` (the URL Figma's
images endpoint returned for the frame id, possibly absent or null) and
`textMap` (the concatenated text extracted from the frame).  When the
URL is truthy it downloads via `urlToBase64`, modelled by the oracle
`b64env k` for the `k`-th download (the count only advances on actual
downloads).  The `uuidv4()` `id` field of each produced file is a fresh
opaque identifier and is omitted from the embedded record. -/

structure FigTarget where
  id : Str
  name : Str
deriving DecidableEq

structure UploadedFile where
  name : Str
  type : Str
  mimeType : Str
  content : Str
deriving DecidableEq

/-- JS truthiness of a possibly-absent string. -/
def truthyOpt : Option Str → Bool
  | none => false
  | some s => !s.isEmpty

def imageItem (t : FigTarget) (b64 : Str) : UploadedFile :=
  { name := ("[Figma] ").toList ++ t.name ++ (".jpg").toList,
    type := ("image/jpeg").toList, mimeType := ("image/jpeg").toList,
    content := b64 }

def textItem (t : FigTarget) (txt : Str) : UploadedFile :=
  { name := ("[Figma_Text] ").toList ++ t.name ++ (".txt").toList,
    type := ("text/plain").toList, mimeType := ("text/plain").toList,
    content := ("\n# Screen: ").toList ++ t.name
      ++ ("\n## Text Content\n").toList ++ txt }

def noteItem (t : FigTarget) (txt : Option Str) : UploadedFile :=
  let cleanText : Str :=
    match txt with
    | some s => if s.isEmpty then [] else jsTrim s
    | none => []
  { name := ("[Figma_Note] ").toList ++ t.name ++ (".txt").toList,
    type := ("text/plain").toList, mimeType := ("text/plain").toList,
    content := ("\n# Screen: ").toList ++ t.name
      ++ ("\n## Status\n⚠️ 이미지 다운로드 실패 (접근 권한 또는 네트워크 오류)\n## Text Content\n").toList
      ++ (if cleanText.isEmpty then ("(텍스트 없음)").toList else cleanText) }

def assembleFiles (b64env : Nat → Str)
    (imageUrlMap textMap : Str → Option Str) :
    List FigTarget → Nat → List UploadedFile × Nat
  | [], k => ([], k)
  | t :: rest, k =>
    let txt := textMap t.id
    if truthyOpt (imageUrlMap t.id) then
      let b64 := b64env k
      if b64.isEmpty then
        let next := assembleFiles b64env imageUrlMap textMap rest (k + 1)
        (noteItem t txt :: next.1, next.2)
      else
        let items :=
          imageItem t b64 ::
            (if truthyOpt txt then [textItem t (txt.getD [])] else [])
        let next := assembleFiles b64env imageUrlMap textMap rest (k + 1)
        (items ++ next.1, next.2)
    else
      let next := assembleFiles b64env imageUrlMap textMap rest k
      (noteItem t txt :: next.1, next.2)

def noFilesError : JsError :=
  { name := ("Error").toList, message := ("변환된 파일이 없습니다.").toList }

def processFigmaPage (b64env : Nat → Str)
    (imageUrlMap textMap : Str → Option Str) (targets : List FigTarget) :
    Except JsError (List UploadedFile) :=
  let files := (assembleFiles b64env imageUrlMap textMap targets 0).1
  if files.length == 0 then .error noFilesError else .ok files

/-- The per-target production discipline, written from the claim's
language: a target with a truthy image URL and a successful download
yields the image file plus, when its text is truthy, the companion text
file; a truthy URL with a failed (empty) download, or a falsy URL,
yields the fallback note file.  The download counter advances exactly
on downloads. -/
inductive AssembleSpec (b64env : Nat → Str)
    (imageUrlMap textMap : Str → Option Str) :
    List FigTarget → Nat → List UploadedFile → Prop
  | nil (k) : AssembleSpec b64env imageUrlMap textMap [] k []
  | imgText (t rest k fs) :
      truthyOpt (imageUrlMap t.id) = true → (b64env k).isEmpty = false →
      truthyOpt (textMap t.id) = true →
      AssembleSpec b64env imageUrlMap textMap rest (k + 1) fs →
      AssembleSpec b64env imageUrlMap textMap (t :: rest) k
        (imageItem t (b64env k) :: textItem t ((textMap t.id).getD []) :: fs)
  | imgOnly (t rest k fs) :
      truthyOpt (imageUrlMap t.id) = true → (b64env k).isEmpty = false →
      truthyOpt (textMap t.id) = false →
      AssembleSpec b64env imageUrlMap textMap rest (k + 1) fs →
      AssembleSpec b64env imageUrlMap textMap (t :: rest) k
        (imageItem t (b64env k) :: fs)
  | noteFailed (t rest k fs) :
      truthyOpt (imageUrlMap t.id) = true → (b64env k).isEmpty = true →
      AssembleSpec b64env imageUrlMap textMap rest (k + 1) fs →
      AssembleSpec b64env imageUrlMap textMap (t :: rest) k
        (noteItem t (textMap t.id) :: fs)
  | noteNoUrl (t rest k fs) :
      truthyOpt (imageUrlMap t.id) = false →
      AssembleSpec b64env imageUrlMap textMap rest k fs →
      AssembleSpec b64env imageUrlMap textMap (t :: rest) k
        (noteItem t (textMap t.id) :: fs)

theorem assembleFiles_length (b64env : Nat → Str)
    (imageUrlMap textMap : Str → Option Str) :
    ∀ (targets : List FigTarget) (k : Nat),
      targets.length ≤ (assembleFiles b64env imageUrlMap textMap targets k).1.length := by
  intro targets
  induction targets with
  | nil => intro k; simp [assembleFiles]
  | cons t rest ih =>
    intro k
    rw [assembleFiles]
    by_cases hurl : truthyOpt (imageUrlMap t.id) = true
    · rw [if_pos hurl]
      by_cases hb : (b64env k).isEmpty = true
      · rw [if_pos hb]
        have := ih (k + 1)
        simpa using Nat.succ_le_succ this
      · rw [if_neg hb]
        have := ih (k + 1)
        by_cases ht : truthyOpt (textMap t.id) = true
        · rw [if_pos ht]
          simp only [List.cons_append, List.length_cons, List.length_append,
            List.length_cons, List.length_nil]
          omega
        · rw [if_neg ht]
          simp only [List.cons_append, List.nil_append, List.length_cons]
          omega
    · rw [if_neg hurl]
      have := ih k
      simpa using Nat.succ_le_succ this

theorem assembleFiles_spec (b64env : Nat → Str)
    (imageUrlMap textMap : Str → Option Str) :
    ∀ (targets : List FigTarget) (k : Nat),
      AssembleSpec b64env imageUrlMap textMap targets k
        (assembleFiles b64env imageUrlMap textMap targets k).1 := by
  intro targets
  induction targets with
  | nil => intro k; exact AssembleSpec.nil k
  | cons t rest ih =>
    intro k
    rw [assembleFiles]
    by_cases hurl : truthyOpt (imageUrlMap t.id) = true
    · rw [if_pos hurl]
      by_cases hb : (b64env k).isEmpty = true
      · rw [if_pos hb]
        exact AssembleSpec.noteFailed t rest k _ hurl hb (ih (k + 1))
      · rw [if_neg hb]
        by_cases ht : truthyOpt (textMap t.id) = true
        · rw [if_pos ht]
          simp only [List.cons_append, List.singleton_append]
          exact AssembleSpec.imgText t rest k _ hurl
            (by simpa using hb) ht (ih (k + 1))
        · rw [if_neg ht]
          simp only [List.cons_append, List.nil_append]
          exact AssembleSpec.imgOnly t rest k _ hurl
            (by simpa using hb) (by simpa using ht) (ih (k + 1))
    · rw [if_neg hurl]
      exact AssembleSpec.noteNoUrl t rest k _ (by simpa using hurl) (ih k)

/-- C7.  The assembly loop of `processFigmaPage` produces at least one
uploaded file per target — every branch pushes an item (the image file,
optionally with its companion text file, or the fallback note) — the
production follows the per-target discipline `AssembleSpec`, and the
final "no files" error is raised exactly when the produced list is
empty; in particular a nonempty target list always yields `.ok`. -/
theorem processFigmaPage_assembly (b64env : Nat → Str)
    (imageUrlMap textMap : Str → Option Str) (targets : List FigTarget) :
    targets.length ≤ (assembleFiles b64env imageUrlMap textMap targets 0).1.length ∧
    AssembleSpec b64env imageUrlMap textMap targets 0
      (assembleFiles b64env imageUrlMap textMap targets 0).1 ∧
    (processFigmaPage b64env imageUrlMap textMap targets = .error noFilesError ↔
      (assembleFiles b64env imageUrlMap textMap targets 0).1 = []) ∧
    (targets ≠ [] →
      processFigmaPage b64env imageUrlMap textMap targets =
        .ok (assembleFiles b64env imageUrlMap textMap targets 0).1) := by
  refine ⟨assembleFiles_length b64env imageUrlMap textMap targets 0,
    assembleFiles_spec b64env imageUrlMap textMap targets 0, ?_, ?_⟩
  · rw [processFigmaPage]
    by_cases hz :
        ((assembleFiles b64env imageUrlMap textMap targets 0).1.length == 0) = true
    · rw [if_pos hz]
      simp only [true_iff]
      have : (assembleFiles b64env imageUrlMap textMap targets 0).1.length = 0 := by
        simpa using hz
      exact List.length_eq_zero.mp this
    · rw [if_neg hz]
      constructor
      · intro h; cases h
      · intro h
        exact absurd (by simp [h]) hz
  · intro hne
    rw [processFigmaPage]
    rw [if_neg ?_]
    intro hz
    have hlen := assembleFiles_length b64env imageUrlMap textMap targets 0
    have : targets.length = 0 := by
      have := Nat.eq_zero_of_le_zero (le_trans hlen (by simpa using hz))
      exact this
    exact hne (List.length_eq_zero.mp this)

/-- Witness for C7: two targets — one with a URL and a successful
download plus text, one whose URL is present but whose download comes
back empty — produce three files and an `.ok` result. -/
theorem processFigmaPage_assembly_witness :
    processFigmaPage
        (fun k => if k == 0 then ("ZGF0YQ==").toList else [])
        (fun _ => some (("https://img").toList))
        (fun i => if i == ("1").toList then some (("hello").toList) else none)
        [{ id := ("1").toList, name := ("A").toList },
         { id := ("2").toList, name := ("B").toList }] =
      .ok (assembleFiles
        (fun k => if k == 0 then ("ZGF0YQ==").toList else [])
        (fun _ => some (("https://img").toList))
        (fun i => if i == ("1").toList then some (("hello").toList) else none)
        [{ id := ("1").toList, name := ("A").toList },
         { id := ("2").toList, name := ("B").toList }] 0).1 :=
  (processFigmaPage_assembly
      (fun k => if k == 0 then ("ZGF0YQ==").toList else [])
      (fun _ => some (("https://img").toList))
      (fun i => if i == ("1").toList then some (("hello").toList) else none)
      [{ id := ("1").toList, name := ("A").toList },
       { id := ("2").toList, name := ("B").toList }]).2.2.2 (by simp)

end TCG
